import Mathlib

/-!
Shallow embedding of `src/src/lib.rs` (difflib-rs): the sequence-matching
core (`SequenceMatcher`: `chain_b`, `find_longest_match`,
`get_matching_blocks`, `get_opcodes`, `get_grouped_opcodes`) and the
`unified_diff` emitter, together with proofs of the specification claims.

Modelling conventions:
* `Vec<String>` sequences become `List α` with `[DecidableEq α]` (the
  algorithm treats elements as opaque keys); `unified_diff` is specialised
  to `List String` as in the source.
* The `HashMap<String, Vec<usize>>` index `b2j` becomes the function
  `chain_b : List α → α → Option (List Nat)` (`none` = key absent, which
  also models the popularity-pruned keys removed in `chain_b`).
* The rolling `j2len` maps become total functions `Nat → Nat` defaulting
  to `0`, matching `*j2len.get(&(j - 1)).unwrap_or(&0)`.
* Rust indexing `a[i]` is modelled with `List.get?`; in the main pipeline
  every index is in bounds.  A separate checked variant
  `find_longest_match_checked` returns `none` exactly where the Rust code
  would panic on an out-of-bounds index (used for the error-handling claim).
* The `while` loops and the worklist loop are written with an explicit
  structural measure (`extendHiF` fuel, `mbLoopF` fuel): the fuel is chosen
  so that it never runs out (`mbLoopF_fuel_eq` below proves fuel
  irrelevance above the measure), so the functions compute exactly the
  loops of the source while remaining kernel-reducible.
-/

namespace Difflib

/-- An opcode `(tag, i1, i2, j1, j2)`; the source uses a `String` tag with
values `"replace"`, `"delete"`, `"insert"`, `"equal"`. -/
structure OpCode where
  tag : String
  i1 : Nat
  i2 : Nat
  j1 : Nat
  j2 : Nat
deriving DecidableEq, Repr

instance : Inhabited OpCode := ⟨⟨"", 0, 0, 0, 0⟩⟩

/-- The ascending list of positions at which `x` occurs in `b`
(the occurrence list built by the first loop of `chain_b`). -/
def occIdx {α : Type} [DecidableEq α] (b : List α) (x : α) : List Nat :=
  (List.range b.length).filter (fun i => decide (b.get? i = some x))

/-- The position index after popularity pruning: `chain_b b x = some l`
iff key `x` is present in the map `b2j` with occurrence list `l`.
Keys that do not occur are absent, and for `b.len() >= 200` keys whose
occurrence list is longer than `ntest = b.len()/100 + 1` are removed. -/
def chain_b {α : Type} [DecidableEq α] (b : List α) (x : α) : Option (List Nat) :=
  let l := occIdx b x
  if l = [] then none
  else if 200 ≤ b.length ∧ b.length / 100 + 1 < l.length then none
  else some l

/-- Inner loop of `find_longest_match` over the occurrence list of the
current row's element: builds `newj2len` and updates the running best. -/
def flmRow (i blo bhi : Nat) (cur : Nat → Nat) :
    List Nat → (Nat × Nat × Nat) → (Nat → Nat) → (Nat × Nat × Nat) × (Nat → Nat)
  | [], best, new => (best, new)
  | j :: js, best, new =>
    if j < blo ∨ bhi ≤ j then flmRow i blo bhi cur js best new
    else
      let k := if j = 0 then 0 else cur (j - 1)
      let new' : Nat → Nat := fun q => if q = j then k + 1 else new q
      let best' := if best.2.2 < k + 1 then (i - k, j - k, k + 1) else best
      flmRow i blo bhi cur js best' new'

/-- Outer loop of `find_longest_match` over the rows `alo..ahi`; a row
whose element is absent from the index (including pruned elements, and
out-of-range rows in this total model) contributes nothing, and the
rolling map is replaced by the fresh `newj2len` after every row. -/
def flmScan {α : Type} [DecidableEq α] (a b : List α) (blo bhi : Nat) :
    List Nat → (Nat × Nat × Nat) → (Nat → Nat) → Nat × Nat × Nat
  | [], best, _ => best
  | i :: is, best, cur =>
    match (a.get? i).bind (chain_b b) with
    | none => flmScan a b blo bhi is best (fun _ => 0)
    | some ps =>
      let st := flmRow i blo bhi cur ps best (fun _ => 0)
      flmScan a b blo bhi is st.1 st.2

/-- First extension `while` loop of `find_longest_match`: grow the best
match downwards while the elements before it agree. -/
def extendLo {α : Type} [DecidableEq α] (a b : List α) (alo blo : Nat) :
    Nat → Nat → Nat → Nat × Nat × Nat
  | 0, bestj, bestsize => (0, bestj, bestsize)
  | besti + 1, bestj, bestsize =>
    if alo < besti + 1 ∧ blo < bestj ∧ a.get? besti = b.get? (bestj - 1) then
      extendLo a b alo blo besti (bestj - 1) (bestsize + 1)
    else (besti + 1, bestj, bestsize)

/-- Second extension `while` loop, with fuel `ahi - (besti + bestsize)`:
the guard `besti + bestsize < ahi` fails exactly when the fuel is `0`,
so the fuelled function computes the loop exactly. -/
def extendHiF {α : Type} [DecidableEq α] (a b : List α) (ahi bhi besti bestj : Nat) :
    Nat → Nat → Nat
  | 0, bestsize => bestsize
  | fuel + 1, bestsize =>
    if besti + bestsize < ahi ∧ bestj + bestsize < bhi ∧
        a.get? (besti + bestsize) = b.get? (bestj + bestsize) then
      extendHiF a b ahi bhi besti bestj fuel (bestsize + 1)
    else bestsize

def extendHi {α : Type} [DecidableEq α] (a b : List α) (ahi bhi besti bestj bestsize : Nat) : Nat :=
  extendHiF a b ahi bhi besti bestj (ahi - (besti + bestsize)) bestsize

/-- `SequenceMatcher::find_longest_match` (total model; out-of-bounds
indices, which panic in Rust, behave as absent elements here — the checked
variant below models the panics). -/
def find_longest_match {α : Type} [DecidableEq α] (a b : List α) (alo ahi blo bhi : Nat) :
    Nat × Nat × Nat :=
  let s := flmScan a b blo bhi (List.range' alo (ahi - alo)) (alo, blo, 0) (fun _ => 0)
  let lo := extendLo a b alo blo s.1 s.2.1 s.2.2
  (lo.1, lo.2.1, extendHi a b ahi bhi lo.1 lo.2.1 lo.2.2)

/-- Measure justifying the fuel of the `get_matching_blocks` worklist
loop: each processed rectangle strictly decreases it. -/
def rectMeasure (stack : List (Nat × Nat × Nat × Nat)) : Nat :=
  (stack.map (fun r => 2 * (r.2.1 - r.1) + 1)).sum

/-- The worklist loop of `get_matching_blocks`.  The stack is LIFO with
its head as top; the source pushes the left sub-rectangle first and the
right one second, so the right one is popped first.  The fuel argument
never runs out when it is at least `rectMeasure stack`
(`mbLoopF_fuel_eq`). -/
def mbLoopF {α : Type} [DecidableEq α] (a b : List α) :
    Nat → List (Nat × Nat × Nat × Nat) → List (Nat × Nat × Nat) → List (Nat × Nat × Nat)
  | _, [], acc => acc
  | 0, _ :: _, acc => acc
  | fuel + 1, (alo, ahi, blo, bhi) :: rest, acc =>
    let r := find_longest_match a b alo ahi blo bhi
    if 0 < r.2.2 then
      let s1 := if alo < r.1 ∧ blo < r.2.1 then (alo, r.1, blo, r.2.1) :: rest else rest
      let s2 := if r.1 + r.2.2 < ahi ∧ r.2.1 + r.2.2 < bhi then
        (r.1 + r.2.2, ahi, r.2.1 + r.2.2, bhi) :: s1 else s1
      mbLoopF a b fuel s2 ((r.1, r.2.1, r.2.2) :: acc)
    else mbLoopF a b fuel rest acc

/-- Insertion step of the sort on `(i, j)` (the source uses
`sort_unstable_by` comparing `(a.0, a.1)`; the keys are pairwise distinct,
so any comparison sort yields this result). -/
def insertBlock (x : Nat × Nat × Nat) : List (Nat × Nat × Nat) → List (Nat × Nat × Nat)
  | [] => [x]
  | y :: ys =>
    if x.1 < y.1 ∨ (x.1 = y.1 ∧ x.2.1 ≤ y.2.1) then x :: y :: ys
    else y :: insertBlock x ys

def sortBlocks (l : List (Nat × Nat × Nat)) : List (Nat × Nat × Nat) :=
  l.foldr insertBlock []

/-- The collapse loop of `get_matching_blocks`: `acc` holds the collapsed
output in reverse (its head is the `last_mut` of the source). -/
def collapseLoop : List (Nat × Nat × Nat) → List (Nat × Nat × Nat) → List (Nat × Nat × Nat)
  | acc, [] => acc.reverse
  | acc, (i, j, k) :: rest =>
    match acc with
    | (li, lj, lk) :: acc' =>
      if li + lk = i ∧ lj + lk = j then collapseLoop ((li, lj, lk + k) :: acc') rest
      else collapseLoop ((i, j, k) :: (li, lj, lk) :: acc') rest
    | [] => collapseLoop [(i, j, k)] rest

/-- `SequenceMatcher::get_matching_blocks`. -/
def get_matching_blocks {α : Type} [DecidableEq α] (a b : List α) : List (Nat × Nat × Nat) :=
  let init : List (Nat × Nat × Nat × Nat) := [(0, a.length, 0, b.length)]
  let ms := mbLoopF a b (rectMeasure init) init []
  collapseLoop [] (sortBlocks ms) ++ [(a.length, b.length, 0)]

/-- The cursor walk of `get_opcodes` over the matching blocks. -/
def opcodeWalk : Nat → Nat → List (Nat × Nat × Nat) → List OpCode
  | _, _, [] => []
  | i, j, (ai, bj, size) :: rest =>
    let gap : List OpCode :=
      if i < ai ∧ j < bj then [⟨"replace", i, ai, j, bj⟩]
      else if i < ai then [⟨"delete", i, ai, j, j⟩]
      else if j < bj then [⟨"insert", i, i, j, bj⟩]
      else []
    let eqs : List OpCode := if 0 < size then [⟨"equal", ai, ai + size, bj, bj + size⟩] else []
    gap ++ eqs ++ opcodeWalk (ai + size) (bj + size) rest

/-- `SequenceMatcher::get_opcodes`. -/
def get_opcodes {α : Type} [DecidableEq α] (a b : List α) : List OpCode :=
  opcodeWalk 0 0 (get_matching_blocks a b)

/-- The `n == 0` grouping loop of `get_grouped_opcodes`. -/
def groupLoop0 : List OpCode → List (List OpCode) → List OpCode → List (List OpCode)
  | [], groups, group => if group = [] then groups else groups ++ [group]
  | c :: rest, groups, group =>
    if c.tag = "equal" ∧ c.i1 < c.i2 then
      groupLoop0 rest (if group = [] then groups else groups ++ [group]) []
    else groupLoop0 rest groups (group ++ [c])

/-- The main grouping loop of `get_grouped_opcodes` for context `n`:
an EQUAL op longer than `2 * n` is split; if the current group is
non-empty it receives a trailing context piece of `n` lines and is
flushed, and the new group starts with a leading context piece of `n`
lines.  (The source does not shrink a leading/trailing EQUAL op of length
at most `2 * n`, and it appends the final group whenever it is
non-empty.) -/
def groupLoopN (n : Nat) : List OpCode → List (List OpCode) → List OpCode → List (List OpCode)
  | [], groups, group => if group = [] then groups else groups ++ [group]
  | c :: rest, groups, group =>
    if c.tag = "equal" ∧ 2 * n < c.i2 - c.i1 then
      groupLoopN n rest
        (if group = [] then groups
         else groups ++ [group ++ [⟨"equal", c.i1, c.i1 + n, c.j1, c.j1 + n⟩]])
        [⟨"equal", c.i2 - n, c.i2, c.j2 - n, c.j2⟩]
    else groupLoopN n rest groups (group ++ [c])

/-- `codes.len() == 1 && codes[0].tag == "equal"`. -/
def singleEqual : List OpCode → Bool
  | [c] => c.tag = "equal"
  | _ => false

/-- `SequenceMatcher::get_grouped_opcodes`. -/
def get_grouped_opcodes {α : Type} [DecidableEq α] (a b : List α) (n : Nat) :
    List (List OpCode) :=
  let codes := get_opcodes a b
  if codes = [] then []
  else if singleEqual codes then []
  else if n = 0 then groupLoop0 codes [] []
  else groupLoopN n codes [] []

/-- The half-open slice `l[i..j]` (used for the bodies emitted by
`unified_diff` and for the reconstruction statement). -/
def sliceL {α : Type} (l : List α) (i j : Nat) : List α :=
  (l.drop i).take (j - i)

/-- `format_range_unified`. -/
def format_range_unified (start stop : Nat) : String :=
  let beginning := start + 1
  let length := stop - start
  if length = 1 then toString beginning
  else if length = 0 then toString start ++ ",0"
  else toString beginning ++ "," ++ toString length

/-- The body lines emitted for one opcode by `unified_diff`
(the indices are in bounds for the opcodes of the pipeline). -/
def opLines (a b : List String) (op : OpCode) : List String :=
  if op.tag = "equal" then (sliceL a op.i1 op.i2).map (fun s => " " ++ s)
  else if op.tag = "delete" then (sliceL a op.i1 op.i2).map (fun s => "-" ++ s)
  else if op.tag = "replace" then
    (sliceL a op.i1 op.i2).map (fun s => "-" ++ s) ++
      (sliceL b op.j1 op.j2).map (fun s => "+" ++ s)
  else if op.tag = "insert" then (sliceL b op.j1 op.j2).map (fun s => "+" ++ s)
  else []

/-- The lines of one hunk: header from the first and last op of the
group, then the bodies. -/
def hunkLines (a b : List String) (lineterm : String) (g : List OpCode) : List String :=
  ("@@ -" ++ format_range_unified (g.headD default).i1 (g.getLastD default).i2 ++
      " +" ++ format_range_unified (g.headD default).j1 (g.getLastD default).j2 ++
      " @@" ++ lineterm) ::
    g.foldr (fun op acc => opLines a b op ++ acc) []

/-- `unified_diff`.  The `started` flag of the source emits the two header
lines exactly once, before the first hunk; since hunks are emitted for
every group, this equals headers followed by all hunks. -/
def unified_diff (a b : List String) (fromfile tofile fromfiledate tofiledate : String)
    (n : Nat) (lineterm : String) : List String :=
  if a = b then []
  else
    let groups := get_grouped_opcodes a b n
    if groups = [] then []
    else
      let fromdate := if fromfiledate = "" then "" else "\t" ++ fromfiledate
      let todate := if tofiledate = "" then "" else "\t" ++ tofiledate
      ("--- " ++ fromfile ++ fromdate ++ lineterm) ::
        ("+++ " ++ tofile ++ todate ++ lineterm) ::
        groups.foldr (fun g acc => hunkLines a b lineterm g ++ acc) []

/-- Applying an opcode list to `a`: the A-slice for EQUAL, the B-slice for
INSERT and REPLACE, nothing for DELETE (the reconstruction of claim C3). -/
def applyOps {α : Type} (a b : List α) : List OpCode → List α
  | [] => []
  | op :: rest =>
    (if op.tag = "equal" then sliceL a op.i1 op.i2
     else if op.tag = "insert" ∨ op.tag = "replace" then sliceL b op.j1 op.j2
     else []) ++ applyOps a b rest

/-! ### Checked variant of `find_longest_match`

Mirrors the Rust function but returns `none` exactly where the Rust code
panics on an out-of-bounds index (`self.a[i]` in the scan loop,
`self.a[best_i - 1] == self.b[best_j - 1]` and
`self.a[best_i + best_size] == self.b[best_j + best_size]` in the
extension loops; `&&` short-circuits, so the indices are touched only
when the preceding guards hold). -/

def flmScanC {α : Type} [DecidableEq α] (a b : List α) (blo bhi : Nat) :
    List Nat → (Nat × Nat × Nat) → (Nat → Nat) → Option (Nat × Nat × Nat)
  | [], best, _ => some best
  | i :: is, best, cur =>
    match a.get? i with
    | none => none
    | some x =>
      match chain_b b x with
      | none => flmScanC a b blo bhi is best (fun _ => 0)
      | some ps =>
        let st := flmRow i blo bhi cur ps best (fun _ => 0)
        flmScanC a b blo bhi is st.1 st.2

def extendLoC {α : Type} [DecidableEq α] (a b : List α) (alo blo : Nat) :
    Nat → Nat → Nat → Option (Nat × Nat × Nat)
  | 0, bestj, bestsize => some (0, bestj, bestsize)
  | besti + 1, bestj, bestsize =>
    if alo < besti + 1 ∧ blo < bestj then
      match a.get? besti, b.get? (bestj - 1) with
      | some x, some y =>
        if x = y then extendLoC a b alo blo besti (bestj - 1) (bestsize + 1)
        else some (besti + 1, bestj, bestsize)
      | _, _ => none
    else some (besti + 1, bestj, bestsize)

def extendHiC {α : Type} [DecidableEq α] (a b : List α) (ahi bhi besti bestj : Nat) :
    Nat → Nat → Option Nat
  | 0, bestsize => some bestsize
  | fuel + 1, bestsize =>
    if besti + bestsize < ahi ∧ bestj + bestsize < bhi then
      match a.get? (besti + bestsize), b.get? (bestj + bestsize) with
      | some x, some y =>
        if x = y then extendHiC a b ahi bhi besti bestj fuel (bestsize + 1)
        else some bestsize
      | _, _ => none
    else some bestsize

def find_longest_match_checked {α : Type} [DecidableEq α] (a b : List α)
    (alo ahi blo bhi : Nat) : Option (Nat × Nat × Nat) :=
  match flmScanC a b blo bhi (List.range' alo (ahi - alo)) (alo, blo, 0) (fun _ => 0) with
  | none => none
  | some s =>
    match extendLoC a b alo blo s.1 s.2.1 s.2.2 with
    | none => none
    | some lo =>
      match extendHiC a b ahi bhi lo.1 lo.2.1 (ahi - (lo.1 + lo.2.2)) lo.2.2 with
      | none => none
      | some k => some (lo.1, lo.2.1, k)

end Difflib

namespace Difflib

/-! ### Invariants of `find_longest_match` -/

/-- Invariant of the rolling map before processing row `i`: every recorded
run has length at most the number of processed rows, stays right of `blo`,
and records a genuine element-wise match ending at row `i - 1`. -/
def CurOK {α : Type} [DecidableEq α] (a b : List α) (alo blo i : Nat) (cur : Nat → Nat) : Prop :=
  ∀ j, cur j ≤ i - alo ∧
    (0 < cur j → blo + cur j ≤ j + 1 ∧
      ∀ t < cur j, a.get? (i - 1 - t) = b.get? (j - t))

/-- Invariant of the running best `(bi, bj, bs)`: either still the initial
value, or a non-empty in-window element-wise match. -/
def BestOK {α : Type} [DecidableEq α] (a b : List α) (alo ahi blo bhi bi bj bs : Nat) : Prop :=
  (bi = alo ∧ bj = blo ∧ bs = 0) ∨
    (0 < bs ∧ alo ≤ bi ∧ bi + bs ≤ ahi ∧ blo ≤ bj ∧ bj + bs ≤ bhi ∧
      ∀ t < bs, a.get? (bi + t) = b.get? (bj + t))

theorem curOK_zero {α : Type} [DecidableEq α] (a b : List α) (alo blo i : Nat) :
    CurOK a b alo blo i (fun _ => 0) := by
  intro j
  exact ⟨Nat.zero_le _, fun h => absurd h (by simp)⟩

theorem mem_occIdx {α : Type} [DecidableEq α] {b : List α} {x : α} {j : Nat}
    (h : j ∈ occIdx b x) : b.get? j = some x := by
  unfold occIdx at h
  rcases List.mem_filter.1 h with ⟨-, h2⟩
  simpa using h2

theorem chain_b_mem {α : Type} [DecidableEq α] {b : List α} {x : α} {ps : List Nat}
    (h : chain_b b x = some ps) {j : Nat} (hj : j ∈ ps) : b.get? j = some x := by
  simp only [chain_b] at h
  split at h
  · exact absurd h (by simp)
  · split at h
    · exact absurd h (by simp)
    · cases h; exact mem_occIdx hj

theorem flmRow_ok {α : Type} [DecidableEq α] {a b : List α} {alo ahi blo bhi i : Nat}
    (hi : alo ≤ i) (hi2 : i < ahi) {x : α} (hx : a.get? i = some x)
    {cur : Nat → Nat} (hcur : CurOK a b alo blo i cur) :
    ∀ (ps : List Nat), (∀ j ∈ ps, b.get? j = some x) →
    ∀ (best : Nat × Nat × Nat) (new : Nat → Nat),
      BestOK a b alo ahi blo bhi best.1 best.2.1 best.2.2 →
      CurOK a b alo blo (i + 1) new →
      BestOK a b alo ahi blo bhi (flmRow i blo bhi cur ps best new).1.1
          (flmRow i blo bhi cur ps best new).1.2.1
          (flmRow i blo bhi cur ps best new).1.2.2 ∧
        CurOK a b alo blo (i + 1) (flmRow i blo bhi cur ps best new).2 := by
  intro ps
  induction ps with
  | nil => intro _ best new hb hn; exact ⟨hb, hn⟩
  | cons j js ih =>
    intro hmem best new hb hn
    have hj : b.get? j = some x := hmem j (List.mem_cons_self _ _)
    have hmem' : ∀ q ∈ js, b.get? q = some x := fun q hq => hmem q (List.mem_cons_of_mem _ hq)
    rw [flmRow]
    split
    · exact ih hmem' best new hb hn
    · rename_i hguard
      have hblo : blo ≤ j := by omega
      have hbhi : j < bhi := by omega
      dsimp only
      generalize hk : (if j = 0 then 0 else cur (j - 1)) = k
      have hk1 : k ≤ i - alo := by
        rw [← hk]; split
        · exact Nat.zero_le _
        · exact (hcur (j - 1)).1
      have hk2 : 0 < k → blo + k ≤ j := by
        intro hpos
        rw [← hk] at hpos
        split at hpos
        · omega
        · rename_i hj0
          have h2 := ((hcur (j - 1)).2 hpos).1
          rw [← hk]
          rw [if_neg hj0]
          omega
      have hkrun : ∀ t < k, a.get? (i - 1 - t) = b.get? (j - 1 - t) := by
        intro t ht
        rw [← hk] at ht
        split at ht
        · omega
        · have hpos : 0 < cur (j - 1) := Nat.lt_of_le_of_lt (Nat.zero_le _) ht
          exact ((hcur (j - 1)).2 hpos).2 t ht
      have hrun : ∀ t < k + 1, a.get? (i - t) = b.get? (j - t) := by
        intro t ht
        match t with
        | 0 => simpa using hx.trans hj.symm
        | s + 1 =>
          have hs : s < k := by omega
          have h1 : i - (s + 1) = i - 1 - s := by omega
          have h2 : j - (s + 1) = j - 1 - s := by omega
          rw [h1, h2]; exact hkrun s hs
      have hki : k ≤ i := le_trans hk1 (Nat.sub_le _ _)
      apply ih hmem'
      · -- BestOK for the updated best
        split
        · rename_i hlt
          right
          dsimp only
          refine ⟨Nat.succ_pos _, by omega, ?_, ?_, ?_, ?_⟩
          · show i - k + (k + 1) ≤ ahi; omega
          · show blo ≤ j - k
            rcases Nat.eq_zero_or_pos k with h0 | hpos
            · omega
            · have := hk2 hpos; omega
          · show j - k + (k + 1) ≤ bhi
            rcases Nat.eq_zero_or_pos k with h0 | hpos
            · omega
            · have := hk2 hpos; omega
          · intro t ht
            have htk : t ≤ k := by omega
            have hkj : k ≤ j := by
              rcases Nat.eq_zero_or_pos k with h0 | hpos
              · omega
              · have := hk2 hpos; omega
            have h1 : i - k + t = i - (k - t) := by omega
            have h2 : j - k + t = j - (k - t) := by omega
            rw [h1, h2]
            exact hrun (k - t) (by omega)
        · exact hb
      · -- CurOK for the updated map
        intro q
        dsimp only
        by_cases hq : q = j
        · rw [hq, if_pos rfl]
          refine ⟨by omega, fun _ => ⟨?_, ?_⟩⟩
          · rcases Nat.eq_zero_or_pos k with h0 | hpos
            · omega
            · have := hk2 hpos; omega
          · intro t ht
            have h1 : i + 1 - 1 - t = i - t := by omega
            rw [h1]
            exact hrun t ht
        · simp only [if_neg hq]
          exact hn q

theorem flmScan_ok {α : Type} [DecidableEq α] {a b : List α} {alo ahi blo bhi : Nat} :
    ∀ (n s : Nat), alo ≤ s → s + n ≤ ahi →
    ∀ (best : Nat × Nat × Nat) (cur : Nat → Nat),
      BestOK a b alo ahi blo bhi best.1 best.2.1 best.2.2 →
      CurOK a b alo blo s cur →
      BestOK a b alo ahi blo bhi
        (flmScan a b blo bhi (List.range' s n) best cur).1
        (flmScan a b blo bhi (List.range' s n) best cur).2.1
        (flmScan a b blo bhi (List.range' s n) best cur).2.2 := by
  intro n
  induction n with
  | zero => intro s _ _ best cur hb _; simpa [flmScan] using hb
  | succ n ih =>
    intro s hs hsn best cur hb hc
    rw [List.range'_succ, flmScan]
    cases hget : (a.get? s).bind (chain_b b) with
    | none => exact ih (s + 1) (by omega) (by omega) best _ hb (curOK_zero a b alo blo (s + 1))
    | some ps =>
      rcases Option.bind_eq_some.1 hget with ⟨y, hy, hcb⟩
      have hmem : ∀ j ∈ ps, b.get? j = some y := fun j hj => chain_b_mem hcb hj
      have hrow := @flmRow_ok _ _ a b alo ahi blo bhi s hs (by omega) y hy _ hc ps hmem best
        (fun _ => 0) hb (curOK_zero a b alo blo (s + 1))
      exact ih (s + 1) (by omega) (by omega) _ _ hrow.1 hrow.2

theorem extendLo_ok {α : Type} [DecidableEq α] {a b : List α} {alo ahi blo bhi : Nat} :
    ∀ (bi bj bs : Nat), BestOK a b alo ahi blo bhi bi bj bs →
      BestOK a b alo ahi blo bhi (extendLo a b alo blo bi bj bs).1
        (extendLo a b alo blo bi bj bs).2.1 (extendLo a b alo blo bi bj bs).2.2 := by
  intro bi
  induction bi with
  | zero =>
    intro bj bs hb; simpa [extendLo] using hb
  | succ bi ih =>
    intro bj bs hb
    rw [extendLo]
    split
    · rename_i hg
      apply ih
      rcases hb with ⟨h1, h2, h3⟩ | ⟨hpos, h1, h2, h3, h4, h5⟩
      · omega
      · right
        refine ⟨Nat.succ_pos _, by omega, by omega, by omega, by omega, ?_⟩
        intro t ht
        match t with
        | 0 => simpa using hg.2.2
        | s + 1 =>
          have h1' : bi + (s + 1) = bi + 1 + s := by omega
          have h2' : bj - 1 + (s + 1) = bj + s := by omega
          rw [h1', h2']
          exact h5 s (by omega)
    · exact hb

theorem extendHiF_ok {α : Type} [DecidableEq α] {a b : List α} {alo ahi blo bhi bi bj : Nat} :
    ∀ (fuel bs : Nat), BestOK a b alo ahi blo bhi bi bj bs →
      BestOK a b alo ahi blo bhi bi bj (extendHiF a b ahi bhi bi bj fuel bs) := by
  intro fuel
  induction fuel with
  | zero => intro bs hb; simpa [extendHiF] using hb
  | succ fuel ih =>
    intro bs hb
    rw [extendHiF]
    split
    · rename_i hg
      apply ih
      rcases hb with ⟨h1, h2, h3⟩ | ⟨hpos, h1, h2, h3, h4, h5⟩
      · subst h1; subst h2
        right
        refine ⟨Nat.succ_pos _, Nat.le_refl _, by omega, Nat.le_refl _, by omega, ?_⟩
        intro t ht
        have ht0 : t = 0 := by omega
        subst ht0
        simpa [h3] using hg.2.2
      · right
        refine ⟨Nat.succ_pos _, h1, by omega, h3, by omega, ?_⟩
        intro t ht
        rcases Nat.lt_or_ge t bs with h | h
        · exact h5 t h
        · have ht' : t = bs := by omega
          subst ht'
          exact hg.2.2
    · exact hb

/-- Main invariant of `find_longest_match`: the result is the initial
`(alo, blo, 0)` or a non-empty in-window element-wise match. -/
theorem flm_ok {α : Type} [DecidableEq α] (a b : List α) (alo ahi blo bhi : Nat) :
    BestOK a b alo ahi blo bhi (find_longest_match a b alo ahi blo bhi).1
      (find_longest_match a b alo ahi blo bhi).2.1
      (find_longest_match a b alo ahi blo bhi).2.2 := by
  unfold find_longest_match extendHi
  dsimp only
  have hscan : BestOK a b alo ahi blo bhi
      (flmScan a b blo bhi (List.range' alo (ahi - alo)) (alo, blo, 0) (fun _ => 0)).1
      (flmScan a b blo bhi (List.range' alo (ahi - alo)) (alo, blo, 0) (fun _ => 0)).2.1
      (flmScan a b blo bhi (List.range' alo (ahi - alo)) (alo, blo, 0) (fun _ => 0)).2.2 := by
    rcases Nat.lt_or_ge ahi alo with h | h
    · have h0 : ahi - alo = 0 := by omega
      rw [h0]
      simp [flmScan, BestOK]
    · exact flmScan_ok (ahi - alo) alo (Nat.le_refl _) (by omega) _ _ (Or.inl (by simp))
        (curOK_zero a b alo blo alo)
  exact extendHiF_ok _ _ (extendLo_ok _ _ _ hscan)

/-- Window bounds and validity of a non-trivial match. -/
theorem flm_pos {α : Type} [DecidableEq α] {a b : List α} {alo ahi blo bhi : Nat}
    (h : 0 < (find_longest_match a b alo ahi blo bhi).2.2) :
    alo ≤ (find_longest_match a b alo ahi blo bhi).1 ∧
    (find_longest_match a b alo ahi blo bhi).1 +
      (find_longest_match a b alo ahi blo bhi).2.2 ≤ ahi ∧
    blo ≤ (find_longest_match a b alo ahi blo bhi).2.1 ∧
    (find_longest_match a b alo ahi blo bhi).2.1 +
      (find_longest_match a b alo ahi blo bhi).2.2 ≤ bhi ∧
    ∀ t < (find_longest_match a b alo ahi blo bhi).2.2,
      a.get? ((find_longest_match a b alo ahi blo bhi).1 + t) =
        b.get? ((find_longest_match a b alo ahi blo bhi).2.1 + t) := by
  rcases flm_ok a b alo ahi blo bhi with ⟨h1, h2, h3⟩ | ⟨_, h1, h2, h3, h4, h5⟩
  · omega
  · exact ⟨h1, h2, h3, h4, h5⟩

/-! ### Invariants of the `get_matching_blocks` worklist loop -/

/-- The block `p = (i, j, k)` is a genuine element-wise match. -/
def BlockValid {α : Type} (a b : List α) (p : Nat × Nat × Nat) : Prop :=
  ∀ t < p.2.2, a.get? (p.1 + t) = b.get? (p.2.1 + t)

/-- `p` lies entirely (weakly) before `q` in both coordinates. -/
def BlockBefore (p q : Nat × Nat × Nat) : Prop :=
  p.1 + p.2.2 ≤ q.1 ∧ p.2.1 + p.2.2 ≤ q.2.1

/-- A block and a pending rectangle are on opposite sides. -/
def BlockRectSep (p : Nat × Nat × Nat) (r : Nat × Nat × Nat × Nat) : Prop :=
  (p.1 + p.2.2 ≤ r.1 ∧ p.2.1 + p.2.2 ≤ r.2.2.1) ∨ (r.2.1 ≤ p.1 ∧ r.2.2.2 ≤ p.2.1)

/-- Two pending rectangles are on opposite sides of each other. -/
def RectSep (r q : Nat × Nat × Nat × Nat) : Prop :=
  (r.2.1 ≤ q.1 ∧ r.2.2.2 ≤ q.2.2.1) ∨ (q.2.1 ≤ r.1 ∧ q.2.2.2 ≤ r.2.2.1)

theorem rectMeasure_cons (r : Nat × Nat × Nat × Nat) (s : List (Nat × Nat × Nat × Nat)) :
    rectMeasure (r :: s) = 2 * (r.2.1 - r.1) + 1 + rectMeasure s := by
  simp [rectMeasure]

theorem rectMeasure_cons4 (a1 a2 b1 b2 : Nat) (s : List (Nat × Nat × Nat × Nat)) :
    rectMeasure ((a1, a2, b1, b2) :: s) = 2 * (a2 - a1) + 1 + rectMeasure s := by
  simp [rectMeasure]

/-- Processing one rectangle strictly decreases the measure. -/
theorem stackStep_measure (alo ahi blo bhi i j k : Nat)
    (rest : List (Nat × Nat × Nat × Nat)) (h1 : alo ≤ i) (h2 : i + k ≤ ahi) (hk : 0 < k) :
    rectMeasure
      (if i + k < ahi ∧ j + k < bhi then
        (i + k, ahi, j + k, bhi) :: (if alo < i ∧ blo < j then (alo, i, blo, j) :: rest else rest)
      else (if alo < i ∧ blo < j then (alo, i, blo, j) :: rest else rest)) + 1 ≤
      rectMeasure ((alo, ahi, blo, bhi) :: rest) := by
  split <;> split <;> simp only [rectMeasure_cons] <;> omega

theorem mbLoopF_ok {α : Type} [DecidableEq α] {a b : List α} :
    ∀ (fuel : Nat) (stack : List (Nat × Nat × Nat × Nat)) (acc : List (Nat × Nat × Nat)),
      rectMeasure stack ≤ fuel →
      (∀ r ∈ stack, r.2.1 ≤ a.length ∧ r.2.2.2 ≤ b.length) →
      (∀ p ∈ acc, 0 < p.2.2 ∧ p.1 + p.2.2 ≤ a.length ∧ p.2.1 + p.2.2 ≤ b.length ∧
        BlockValid a b p) →
      (∀ p ∈ acc, ∀ r ∈ stack, BlockRectSep p r) →
      List.Pairwise RectSep stack →
      List.Pairwise (fun p q => BlockBefore p q ∨ BlockBefore q p) acc →
      (∀ p ∈ mbLoopF a b fuel stack acc,
        0 < p.2.2 ∧ p.1 + p.2.2 ≤ a.length ∧ p.2.1 + p.2.2 ≤ b.length ∧
          BlockValid a b p) ∧
      List.Pairwise (fun p q => BlockBefore p q ∨ BlockBefore q p)
        (mbLoopF a b fuel stack acc) := by
  intro fuel
  induction fuel with
  | zero =>
    intro stack acc hm hr hacc hcross hps hpa
    cases stack with
    | nil => exact ⟨hacc, hpa⟩
    | cons r rest => rw [rectMeasure_cons] at hm; omega
  | succ fuel ih =>
    intro stack acc hm hr hacc hcross hps hpa
    match stack with
    | [] => exact ⟨hacc, hpa⟩
    | (alo, ahi, blo, bhi) :: rest =>
      rw [mbLoopF]
      dsimp only
      have hahi : ahi ≤ a.length := (hr _ (List.mem_cons_self _ _)).1
      have hbhi : bhi ≤ b.length := (hr _ (List.mem_cons_self _ _)).2
      have hrrest : ∀ r ∈ rest, r.2.1 ≤ a.length ∧ r.2.2.2 ≤ b.length :=
        fun r hr' => hr r (List.mem_cons_of_mem _ hr')
      have hsep : ∀ r ∈ rest, RectSep (alo, ahi, blo, bhi) r := (List.pairwise_cons.1 hps).1
      have hpsrest := (List.pairwise_cons.1 hps).2
      have hcrossrest : ∀ p ∈ acc, ∀ r ∈ rest, BlockRectSep p r :=
        fun p hp r hr' => hcross p hp r (List.mem_cons_of_mem _ hr')
      have hcrosshead : ∀ p ∈ acc, BlockRectSep p (alo, ahi, blo, bhi) :=
        fun p hp => hcross p hp _ (List.mem_cons_self _ _)
      rw [rectMeasure_cons4] at hm
      obtain ⟨⟨i, j, k⟩, heq⟩ : ∃ p, find_longest_match a b alo ahi blo bhi = p := ⟨_, rfl⟩
      rw [heq]
      dsimp only
      split
      · rename_i hk
        have hb := flm_pos (show 0 < (find_longest_match a b alo ahi blo bhi).2.2 by
          rw [heq]; exact hk)
        rw [heq] at hb
        dsimp only at hb
        obtain ⟨hb1, hb2, hb3, hb4, hb5⟩ := hb
        -- rectangle separation facts for the children
        have hLsep : ∀ r' ∈ rest, RectSep (alo, i, blo, j) r' := by
          intro r' hr'
          have h := hsep r' hr'
          simp only [RectSep] at h ⊢
          omega
        have hRsep : ∀ r' ∈ rest, RectSep (i + k, ahi, j + k, bhi) r' := by
          intro r' hr'
          have h := hsep r' hr'
          simp only [RectSep] at h ⊢
          omega
        have hLR : RectSep (i + k, ahi, j + k, bhi) (alo, i, blo, j) := by
          simp only [RectSep]
          omega
        -- block/rectangle separation for the new block and the children
        have hp0L : BlockRectSep (i, j, k) (alo, i, blo, j) := by
          simp only [BlockRectSep]
          omega
        have hp0R : BlockRectSep (i, j, k) (i + k, ahi, j + k, bhi) := by
          simp only [BlockRectSep]
          omega
        have hp0rest : ∀ r' ∈ rest, BlockRectSep (i, j, k) r' := by
          intro r' hr'
          have h := hsep r' hr'
          simp only [RectSep] at h
          simp only [BlockRectSep]
          omega
        have haccL : ∀ p ∈ acc, BlockRectSep p (alo, i, blo, j) := by
          intro p hp
          have h := hcrosshead p hp
          simp only [BlockRectSep] at h ⊢
          omega
        have haccR : ∀ p ∈ acc, BlockRectSep p (i + k, ahi, j + k, bhi) := by
          intro p hp
          have h := hcrosshead p hp
          simp only [BlockRectSep] at h ⊢
          omega
        have haccp0 : ∀ p ∈ acc, BlockBefore (i, j, k) p ∨ BlockBefore p (i, j, k) := by
          intro p hp
          have h := hcrosshead p hp
          simp only [BlockRectSep] at h
          simp only [BlockBefore]
          omega
        have hp0good : 0 < k ∧ i + k ≤ a.length ∧ j + k ≤ b.length ∧
            BlockValid a b (i, j, k) := by
          refine ⟨hk, by omega, by omega, ?_⟩
          intro t ht
          exact hb5 t ht
        -- apply the induction hypothesis to the new stack and accumulator
        apply ih
        · split <;> split <;> (try simp only [rectMeasure_cons4]) <;> omega
        · -- rectangle bounds
          intro r' hr'
          split at hr'
          · rcases List.mem_cons.1 hr' with h | h
            · subst h; exact ⟨by dsimp only; omega, by dsimp only; omega⟩
            · split at h
              · rcases List.mem_cons.1 h with h' | h'
                · subst h'; exact ⟨by dsimp only; omega, by dsimp only; omega⟩
                · exact hrrest r' h'
              · exact hrrest r' h
          · split at hr'
            · rcases List.mem_cons.1 hr' with h' | h'
              · subst h'; exact ⟨by dsimp only; omega, by dsimp only; omega⟩
              · exact hrrest r' h'
            · exact hrrest r' hr'
        · -- block properties of the new accumulator
          intro p hp
          rcases List.mem_cons.1 hp with h | h
          · subst h; exact hp0good
          · exact hacc p h
        · -- block/rectangle separation
          intro p hp r' hr'
          have hpr : p = (i, j, k) ∨ p ∈ acc := List.mem_cons.1 hp
          have hrmem : r' = (i + k, ahi, j + k, bhi) ∨ r' = (alo, i, blo, j) ∨ r' ∈ rest := by
            split at hr'
            · rcases List.mem_cons.1 hr' with h | h
              · exact Or.inl h
              · split at h
                · rcases List.mem_cons.1 h with h' | h'
                  · exact Or.inr (Or.inl h')
                  · exact Or.inr (Or.inr h')
                · exact Or.inr (Or.inr h)
            · split at hr'
              · rcases List.mem_cons.1 hr' with h' | h'
                · exact Or.inr (Or.inl h')
                · exact Or.inr (Or.inr h')
              · exact Or.inr (Or.inr hr')
          rcases hpr with hp1 | hp1 <;> rcases hrmem with hr1 | hr1 | hr1
          · subst hp1; subst hr1; exact hp0R
          · subst hp1; subst hr1; exact hp0L
          · subst hp1; exact hp0rest r' hr1
          · subst hr1; exact haccR p hp1
          · subst hr1; exact haccL p hp1
          · exact hcrossrest p hp1 r' hr1
        · -- pairwise separation of the new stack
          split
          · apply List.pairwise_cons.2
            constructor
            · intro r' hr'
              split at hr'
              · rcases List.mem_cons.1 hr' with h | h
                · subst h; exact hLR
                · exact hRsep r' h
              · exact hRsep r' hr'
            · split
              · exact List.pairwise_cons.2 ⟨hLsep, hpsrest⟩
              · exact hpsrest
          · split
            · exact List.pairwise_cons.2 ⟨hLsep, hpsrest⟩
            · exact hpsrest
        · -- pairwise comparability of the new accumulator
          exact List.pairwise_cons.2 ⟨haccp0, hpa⟩
      · exact ih rest acc (by omega) hrrest hacc hcrossrest hpsrest hpa

/-- Fuel irrelevance: above the measure, the fuel does not affect the
worklist loop, so `mbLoopF` with fuel `rectMeasure stack` computes the
unbounded loop of the source. -/
theorem mbLoopF_fuel_eq {α : Type} [DecidableEq α] {a b : List α} :
    ∀ (f1 f2 : Nat) (stack : List (Nat × Nat × Nat × Nat)) (acc : List (Nat × Nat × Nat)),
      rectMeasure stack ≤ f1 → rectMeasure stack ≤ f2 →
      mbLoopF a b f1 stack acc = mbLoopF a b f2 stack acc := by
  intro f1
  induction f1 with
  | zero =>
    intro f2 stack acc h1 h2
    cases stack with
    | nil => cases f2 <;> rfl
    | cons r rest => rw [rectMeasure_cons] at h1; omega
  | succ f1 ih =>
    intro f2 stack acc h1 h2
    match stack with
    | [] => cases f2 <;> rfl
    | (alo, ahi, blo, bhi) :: rest =>
      match f2 with
      | 0 => rw [rectMeasure_cons] at h2; omega
      | f2 + 1 =>
        rw [mbLoopF, mbLoopF]
        dsimp only
        rw [rectMeasure_cons4] at h1 h2
        obtain ⟨⟨i, j, k⟩, heq⟩ : ∃ p, find_longest_match a b alo ahi blo bhi = p := ⟨_, rfl⟩
        rw [heq]
        dsimp only
        split
        · rename_i hk
          have hb := flm_pos (show 0 < (find_longest_match a b alo ahi blo bhi).2.2 by
            rw [heq]; exact hk)
          rw [heq] at hb
          dsimp only at hb
          apply ih
          · split <;> split <;> (try simp only [rectMeasure_cons4]) <;> omega
          · split <;> split <;> (try simp only [rectMeasure_cons4]) <;> omega
        · exact ih f2 rest acc (by omega) (by omega)

/-! ### Sorting and collapsing the blocks -/

/-- The sort key of `sort_unstable_by`: lexicographic on `(i, j)`. -/
def lexLe (p q : Nat × Nat × Nat) : Prop :=
  p.1 < q.1 ∨ (p.1 = q.1 ∧ p.2.1 ≤ q.2.1)

theorem insertBlock_perm (x : Nat × Nat × Nat) (l : List (Nat × Nat × Nat)) :
    List.Perm (insertBlock x l) (x :: l) := by
  induction l with
  | nil => exact List.Perm.refl _
  | cons z zs ih =>
    rw [insertBlock]
    split
    · exact List.Perm.refl _
    · exact ((ih.cons z).trans (List.Perm.swap x z zs))

theorem sortBlocks_perm (l : List (Nat × Nat × Nat)) : List.Perm (sortBlocks l) l := by
  induction l with
  | nil => exact List.Perm.refl _
  | cons x xs ih => exact (insertBlock_perm x (sortBlocks xs)).trans (ih.cons x)

theorem insertBlock_sorted {x : Nat × Nat × Nat} {l : List (Nat × Nat × Nat)}
    (h : List.Pairwise lexLe l) : List.Pairwise lexLe (insertBlock x l) := by
  induction l with
  | nil => simp [insertBlock]
  | cons z zs ih =>
    rw [insertBlock]
    rcases List.pairwise_cons.1 h with ⟨hz, hzs⟩
    split
    · rename_i hc
      apply List.pairwise_cons.2
      refine ⟨?_, h⟩
      intro y hy
      rcases List.mem_cons.1 hy with hy | hy
      · subst hy; exact hc
      · have := hz y hy
        simp only [lexLe] at *
        omega
    · rename_i hc
      apply List.pairwise_cons.2
      refine ⟨?_, ih hzs⟩
      intro y hy
      rcases List.mem_cons.1 ((insertBlock_perm x zs).mem_iff.1 hy) with hy | hy
      · subst hy
        simp only [lexLe] at *
        omega
      · exact hz y hy

theorem sortBlocks_sorted (l : List (Nat × Nat × Nat)) :
    List.Pairwise lexLe (sortBlocks l) := by
  induction l with
  | nil => simp [sortBlocks]
  | cons x xs ih => exact insertBlock_sorted ih

/-- After sorting, pairwise one-sided separation becomes pairwise
`BlockBefore` in list order (zero-length blocks excluded). -/
theorem sorted_before {l : List (Nat × Nat × Nat)}
    (hs : List.Pairwise lexLe l)
    (hc : List.Pairwise (fun p q => BlockBefore p q ∨ BlockBefore q p) l)
    (hk : ∀ p ∈ l, 0 < p.2.2) : List.Pairwise BlockBefore l := by
  have hand := hs.and hc
  apply hand.imp_of_mem
  intro p q hp hq hpq
  have hkp := hk p hp
  have hkq := hk q hq
  rcases hpq with ⟨h1, h2⟩
  simp only [lexLe, BlockBefore] at *
  omega

/-- Invariant proof of the collapse loop: `acc` is the reversed collapsed
prefix, `rest` the remaining sorted blocks. -/
theorem collapseLoop_ok {α : Type} {a b : List α} :
    ∀ (rest acc : List (Nat × Nat × Nat)),
      (∀ p ∈ acc, 0 < p.2.2 ∧ p.1 + p.2.2 ≤ a.length ∧ p.2.1 + p.2.2 ≤ b.length ∧
        BlockValid a b p) →
      (∀ p ∈ rest, 0 < p.2.2 ∧ p.1 + p.2.2 ≤ a.length ∧ p.2.1 + p.2.2 ≤ b.length ∧
        BlockValid a b p) →
      List.Pairwise (fun p q => BlockBefore q p) acc →
      List.Pairwise BlockBefore rest →
      (∀ p ∈ acc, ∀ q ∈ rest, BlockBefore p q) →
      List.Chain' (fun p q => ¬(q.1 + q.2.2 = p.1 ∧ q.2.1 + q.2.2 = p.2.1)) acc →
      (∀ p ∈ collapseLoop acc rest, 0 < p.2.2 ∧ p.1 + p.2.2 ≤ a.length ∧
        p.2.1 + p.2.2 ≤ b.length ∧ BlockValid a b p) ∧
      List.Pairwise BlockBefore (collapseLoop acc rest) ∧
      List.Chain' (fun p q => ¬(p.1 + p.2.2 = q.1 ∧ p.2.1 + p.2.2 = q.2.1))
        (collapseLoop acc rest) := by
  intro rest
  induction rest with
  | nil =>
    intro acc hacc _ hpa _ _ hch
    rw [collapseLoop]
    refine ⟨fun p hp => hacc p (List.mem_reverse.1 hp), ?_, ?_⟩
    · exact List.pairwise_reverse.2 hpa
    · exact List.chain'_reverse.2 hch
  | cons hd rest' ih =>
    intro acc hacc hrest hpa hpr hcross hch
    obtain ⟨i, j, k⟩ := hd
    have hhd := hrest _ (List.mem_cons_self _ _)
    dsimp only at hhd
    have hrest' : ∀ p ∈ rest', 0 < p.2.2 ∧ p.1 + p.2.2 ≤ a.length ∧
        p.2.1 + p.2.2 ≤ b.length ∧ BlockValid a b p :=
      fun p hp => hrest p (List.mem_cons_of_mem _ hp)
    have hheadbefore : ∀ q ∈ rest', BlockBefore (i, j, k) q := (List.pairwise_cons.1 hpr).1
    have hprrest := (List.pairwise_cons.1 hpr).2
    match acc with
    | [] =>
      rw [collapseLoop]
      apply ih
      · intro p hp
        rcases List.mem_cons.1 hp with h | h
        · subst h; exact hhd
        · simp at h
      · exact hrest'
      · simp
      · exact hprrest
      · intro p hp q hq
        rcases List.mem_cons.1 hp with h | h
        · subst h; exact hheadbefore q hq
        · simp at h
      · simp
    | (li, lj, lk) :: acc2 =>
      have hlast := hacc _ (List.mem_cons_self _ _)
      dsimp only at hlast
      have hacc2 : ∀ p ∈ acc2, 0 < p.2.2 ∧ p.1 + p.2.2 ≤ a.length ∧
          p.2.1 + p.2.2 ≤ b.length ∧ BlockValid a b p :=
        fun p hp => hacc p (List.mem_cons_of_mem _ hp)
      have hpa2 : ∀ p ∈ acc2, BlockBefore p (li, lj, lk) := (List.pairwise_cons.1 hpa).1
      have hpaacc2 := (List.pairwise_cons.1 hpa).2
      have hcross2 : ∀ p ∈ acc2, ∀ q ∈ (i, j, k) :: rest', BlockBefore p q :=
        fun p hp => hcross p (List.mem_cons_of_mem _ hp)
      have hcrosslast := hcross _ (List.mem_cons_self _ _)
      rw [collapseLoop]
      split
      · rename_i hmerge
        apply ih
        · -- properties of the merged head
          intro p hp
          rcases List.mem_cons.1 hp with h | h
          · subst h
            refine ⟨by dsimp only; omega, by dsimp only; omega, by dsimp only; omega, ?_⟩
            intro t ht
            dsimp only at ht ⊢
            rcases Nat.lt_or_ge t lk with h' | h'
            · exact hlast.2.2.2 t h'
            · have h1 : li + t = i + (t - lk) := by omega
              have h2 : lj + t = j + (t - lk) := by omega
              rw [h1, h2]
              have hv : t - lk < k := by omega
              exact hhd.2.2.2 (t - lk) hv
          · exact hacc2 p h
        · exact hrest'
        · -- pairwise of the new accumulator
          apply List.pairwise_cons.2
          refine ⟨?_, hpaacc2⟩
          intro p hp
          have := hpa2 p hp
          simp only [BlockBefore] at *
          omega
        · exact hprrest
        · -- cross separation
          intro p hp q hq
          rcases List.mem_cons.1 hp with h | h
          · subst h
            have h1 := hheadbefore q hq
            simp only [BlockBefore] at *
            omega
          · exact hcross2 p h q (List.mem_cons_of_mem _ hq)
        · -- chain of non-mergeable links
          rcases List.chain'_cons'.1 hch with ⟨hlink, hch2⟩
          apply List.chain'_cons'.2
          refine ⟨?_, hch2⟩
          intro y hy
          have := hlink y hy
          simp only at *
          omega
      · rename_i hmerge
        apply ih
        · intro p hp
          rcases List.mem_cons.1 hp with h | h
          · subst h; exact hhd
          · exact hacc p h
        · exact hrest'
        · -- pairwise of the new accumulator
          apply List.pairwise_cons.2
          refine ⟨?_, hpa⟩
          intro p hp
          rcases List.mem_cons.1 hp with h | h
          · subst h
            exact hcrosslast _ (List.mem_cons_self _ _)
          · exact hcross2 p h _ (List.mem_cons_self _ _)
        · exact hprrest
        · -- cross separation
          intro p hp q hq
          rcases List.mem_cons.1 hp with h | h
          · subst h; exact hheadbefore q hq
          · exact hcross p h q (List.mem_cons_of_mem _ hq)
        · -- chain: the new link is exactly non-mergeability
          apply List.chain'_cons'.2
          refine ⟨?_, hch⟩
          intro y hy
          simp only [List.head?_cons, Option.mem_def, Option.some.injEq] at hy
          subst hy
          simpa using hmerge

/-- The canonical properties of `get_matching_blocks`: every block is an
in-range element-wise match; the list is the collapsed list (all of
positive length) followed by the sentinel; blocks are pairwise ordered;
and consecutive blocks of positive length are never mergeable. -/
theorem mb_props {α : Type} [DecidableEq α] (a b : List α) :
    (∀ p ∈ get_matching_blocks a b, p.1 + p.2.2 ≤ a.length ∧ p.2.1 + p.2.2 ≤ b.length ∧
      BlockValid a b p) ∧
    (∃ L, get_matching_blocks a b = L ++ [(a.length, b.length, 0)] ∧ ∀ p ∈ L, 0 < p.2.2) ∧
    List.Pairwise BlockBefore (get_matching_blocks a b) ∧
    List.Chain' (fun p q => 0 < q.2.2 → ¬(p.1 + p.2.2 = q.1 ∧ p.2.1 + p.2.2 = q.2.1))
      (get_matching_blocks a b) := by
  have hdef : get_matching_blocks a b =
      collapseLoop [] (sortBlocks (mbLoopF a b
        (rectMeasure [(0, a.length, 0, b.length)]) [(0, a.length, 0, b.length)] [])) ++
        [(a.length, b.length, 0)] := rfl
  have hraw := @mbLoopF_ok _ _ a b
    (rectMeasure [(0, a.length, 0, b.length)]) [(0, a.length, 0, b.length)] []
    (Nat.le_refl _)
    (by
      intro r hr
      rcases List.mem_singleton.1 hr with rfl
      exact ⟨Nat.le_refl _, Nat.le_refl _⟩)
    (by intro p hp; simp at hp)
    (by intro p hp; simp at hp)
    (by simp)
    (by simp)
  obtain ⟨hprops, hcomp⟩ := hraw
  have hperm := sortBlocks_perm (mbLoopF a b
    (rectMeasure [(0, a.length, 0, b.length)]) [(0, a.length, 0, b.length)] [])
  have hsprops := fun p hp => hprops p (hperm.mem_iff.1 hp)
  have hcompS := (hperm.pairwise_iff (fun {p q} h => Or.symm h)).2 hcomp
  have hbefore := sorted_before (sortBlocks_sorted _) hcompS (fun p hp => (hsprops p hp).1)
  have hcol := @collapseLoop_ok _ a b _ []
    (by intro p hp; simp at hp) hsprops (by simp) hbefore
    (by intro p hp; simp at hp) (by simp)
  obtain ⟨hc1, hc2, hc3⟩ := hcol
  rw [hdef]
  refine ⟨?_, ?_, ?_, ?_⟩
  · intro p hp
    rcases List.mem_append.1 hp with h | h
    · exact ⟨(hc1 p h).2.1, (hc1 p h).2.2.1, (hc1 p h).2.2.2⟩
    · rcases List.mem_singleton.1 h with rfl
      exact ⟨by dsimp only; omega, by dsimp only; omega, fun t ht => by dsimp only at ht; omega⟩
  · exact ⟨_, rfl, fun p hp => (hc1 p hp).1⟩
  · apply List.pairwise_append.2
    refine ⟨hc2, by simp, ?_⟩
    intro p hp q hq
    rcases List.mem_singleton.1 hq with rfl
    have := hc1 p hp
    simp only [BlockBefore]
    omega
  · apply List.chain'_append.2
    refine ⟨List.Chain'.imp (fun p q h => fun _ : 0 < q.2.2 => h) hc3, by simp, ?_⟩
    intro x _ y hy
    simp only [List.head?_cons, Option.mem_def, Option.some.injEq] at hy
    subst hy
    intro h0
    exact absurd h0 (by simp)

/-! ### Slices -/

theorem sliceL_get? {α : Type} (l : List α) (i j t : Nat) :
    (sliceL l i j).get? t = if t < j - i then l.get? (i + t) else none := by
  unfold sliceL
  split
  · rename_i h
    rw [List.get?_eq_getElem?, List.get?_eq_getElem?, List.getElem?_take_of_lt h,
      List.getElem?_drop]
  · rename_i h
    rw [List.get?_eq_getElem?]
    have hlen : (((l.drop i).take (j - i))).length ≤ t := by
      have := List.length_take (j - i) (l.drop i)
      omega
    exact List.getElem?_eq_none hlen

theorem sliceL_nil {α : Type} (l : List α) (i : Nat) : sliceL l i i = [] := by
  simp [sliceL]

theorem sliceL_full {α : Type} (l : List α) : sliceL l 0 l.length = l := by
  simp [sliceL]

theorem sliceL_append {α : Type} (l : List α) {x y z : Nat} (h1 : x ≤ y) (h2 : y ≤ z) :
    sliceL l x y ++ sliceL l y z = sliceL l x z := by
  unfold sliceL
  have hz : z - x = (y - x) + (z - y) := by omega
  rw [hz, List.take_add, List.drop_drop]
  have hy : x + (y - x) = y := by omega
  rw [hy]

theorem slice_eq_of_run {α : Type} {a b : List α} {i1 j1 k : Nat}
    (h : ∀ t < k, a.get? (i1 + t) = b.get? (j1 + t)) :
    sliceL a i1 (i1 + k) = sliceL b j1 (j1 + k) := by
  apply List.ext_get?
  intro t
  rw [sliceL_get?, sliceL_get?]
  have h1 : i1 + k - i1 = k := by omega
  have h2 : j1 + k - j1 = k := by omega
  rw [h1, h2]
  split
  · exact h t (by omega)
  · rfl

/-! ### The opcode walk -/

/-- The second coordinate of the final cursor of the walk from default `d`. -/
def lastEndJ : List (Nat × Nat × Nat) → Nat → Nat
  | [], d => d
  | p :: bs, _ => lastEndJ bs (p.2.1 + p.2.2)

/-- The first coordinate of the final cursor of the walk from default `d`. -/
def lastEndI : List (Nat × Nat × Nat) → Nat → Nat
  | [], d => d
  | p :: bs, _ => lastEndI bs (p.1 + p.2.2)

theorem lastEndJ_append_single (l : List (Nat × Nat × Nat)) (p : Nat × Nat × Nat) :
    ∀ d, lastEndJ (l ++ [p]) d = p.2.1 + p.2.2 := by
  induction l with
  | nil => intro d; rfl
  | cons q l ih => intro d; exact ih _

theorem lastEndI_append_single (l : List (Nat × Nat × Nat)) (p : Nat × Nat × Nat) :
    ∀ d, lastEndI (l ++ [p]) d = p.1 + p.2.2 := by
  induction l with
  | nil => intro d; rfl
  | cons q l ih => intro d; exact ih _

theorem lastEndJ_ge : ∀ (bs : List (Nat × Nat × Nat)) (d : Nat),
    (∀ p, bs.head? = some p → d ≤ p.2.1) → List.Pairwise BlockBefore bs →
    d ≤ lastEndJ bs d := by
  intro bs
  induction bs with
  | nil => intro d _ _; exact Nat.le_refl _
  | cons p bs ih =>
    intro d hd hpw
    have h1 : d ≤ p.2.1 := hd p rfl
    have h2 : p.2.1 + p.2.2 ≤ lastEndJ bs (p.2.1 + p.2.2) := by
      apply ih
      · intro q hq
        have hmem : q ∈ bs := by
          cases bs with
          | nil => simp at hq
          | cons r rs =>
            simp only [List.head?_cons, Option.some.injEq] at hq
            subst hq
            exact List.mem_cons_self _ _
        exact ((List.pairwise_cons.1 hpw).1 q hmem).2
      · exact (List.pairwise_cons.1 hpw).2
    rw [lastEndJ]
    omega

/-- Classification of a well-formed opcode. -/
def GoodOp {α : Type} (a b : List α) (op : OpCode) : Prop :=
  (op.tag = "replace" ∧ op.i1 < op.i2 ∧ op.j1 < op.j2) ∨
  (op.tag = "delete" ∧ op.i1 < op.i2 ∧ op.j1 = op.j2) ∨
  (op.tag = "insert" ∧ op.i1 = op.i2 ∧ op.j1 < op.j2) ∨
  (op.tag = "equal" ∧ op.i1 < op.i2 ∧ op.i2 - op.i1 = op.j2 - op.j1 ∧
    sliceL a op.i1 op.i2 = sliceL b op.j1 op.j2)

/-- Case analysis of the gap opcode emitted before a block. -/
theorem gap_cases {α : Type} (a b : List α) (ci ai cj bj : Nat)
    (hci : ci ≤ ai) (hcj : cj ≤ bj) :
    ((if ci < ai ∧ cj < bj then [OpCode.mk "replace" ci ai cj bj]
      else if ci < ai then [OpCode.mk "delete" ci ai cj cj]
      else if cj < bj then [OpCode.mk "insert" ci ci cj bj]
      else ([] : List OpCode)) = [] ∧ ci = ai ∧ cj = bj) ∨
    (∃ g, (if ci < ai ∧ cj < bj then [OpCode.mk "replace" ci ai cj bj]
      else if ci < ai then [OpCode.mk "delete" ci ai cj cj]
      else if cj < bj then [OpCode.mk "insert" ci ci cj bj]
      else ([] : List OpCode)) = [g] ∧ g.tag ≠ "equal" ∧
      g.i1 = ci ∧ g.j1 = cj ∧ g.i2 = ai ∧ g.j2 = bj ∧ GoodOp a b g ∧
      applyOps a b [g] = sliceL b cj bj) := by
  by_cases h1 : ci < ai ∧ cj < bj
  · rw [if_pos h1]
    refine Or.inr ⟨_, rfl, (by decide : ("replace" : String) ≠ "equal"), rfl, rfl, rfl, rfl,
      Or.inl ⟨rfl, h1.1, h1.2⟩, ?_⟩
    show (if ("replace" : String) = "equal" then sliceL a ci ai
      else if ("replace" : String) = "insert" ∨ ("replace" : String) = "replace" then
        sliceL b cj bj else []) ++ applyOps a b [] = sliceL b cj bj
    rw [if_neg (by decide), if_pos (by decide)]
    exact List.append_nil _
  · rw [if_neg h1]
    by_cases h2 : ci < ai
    · rw [if_pos h2]
      have hbj : cj = bj := by omega
      refine Or.inr ⟨_, rfl, (by decide : ("delete" : String) ≠ "equal"), rfl, rfl, rfl, hbj,
        Or.inr (Or.inl ⟨rfl, h2, rfl⟩), ?_⟩
      show (if ("delete" : String) = "equal" then sliceL a ci ai
        else if ("delete" : String) = "insert" ∨ ("delete" : String) = "replace" then
          sliceL b cj cj else []) ++ applyOps a b [] = sliceL b cj bj
      rw [if_neg (by decide), if_neg (by decide), ← hbj, sliceL_nil]
      rfl
    · rw [if_neg h2]
      by_cases h3 : cj < bj
      · rw [if_pos h3]
        have hai : ci = ai := by omega
        refine Or.inr ⟨_, rfl, (by decide : ("insert" : String) ≠ "equal"), rfl, rfl, hai, rfl,
          Or.inr (Or.inr (Or.inl ⟨rfl, rfl, h3⟩)), ?_⟩
        show (if ("insert" : String) = "equal" then sliceL a ci ci
          else if ("insert" : String) = "insert" ∨ ("insert" : String) = "replace" then
            sliceL b cj bj else []) ++ applyOps a b [] = sliceL b cj bj
        rw [if_neg (by decide), if_pos (by decide)]
        exact List.append_nil _
      · rw [if_neg h3]
        exact Or.inl ⟨rfl, by omega, by omega⟩

theorem eqs_cases (ai bj sz : Nat) :
    ((if 0 < sz then [OpCode.mk "equal" ai (ai + sz) bj (bj + sz)]
      else ([] : List OpCode)) = [] ∧ sz = 0) ∨
    ((if 0 < sz then [OpCode.mk "equal" ai (ai + sz) bj (bj + sz)]
      else ([] : List OpCode)) = [OpCode.mk "equal" ai (ai + sz) bj (bj + sz)] ∧ 0 < sz) := by
  by_cases h : 0 < sz
  · rw [if_pos h]; exact Or.inr ⟨rfl, h⟩
  · rw [if_neg h]; exact Or.inl ⟨rfl, by omega⟩

/-- The contribution of the EQUAL opcode of a block to the reconstruction. -/
theorem eqs_applyOps {α : Type} (a b : List α) (ai bj sz : Nat)
    (hv : BlockValid a b (ai, bj, sz)) :
    applyOps a b (if 0 < sz then [OpCode.mk "equal" ai (ai + sz) bj (bj + sz)]
      else ([] : List OpCode)) = sliceL b bj (bj + sz) := by
  rcases eqs_cases ai bj sz with ⟨he, hsz⟩ | ⟨he, hsz⟩
  · rw [he, hsz, Nat.add_zero, sliceL_nil]
    rfl
  · rw [he]
    show (if ("equal" : String) = "equal" then sliceL a ai (ai + sz)
      else if ("equal" : String) = "insert" ∨ ("equal" : String) = "replace" then
        sliceL b bj (bj + sz) else []) ++ applyOps a b [] = sliceL b bj (bj + sz)
    rw [if_pos rfl, slice_eq_of_run (fun t ht => hv t ht)]
    exact List.append_nil _

theorem applyOps_append {α : Type} (a b : List α) (l1 l2 : List OpCode) :
    applyOps a b (l1 ++ l2) = applyOps a b l1 ++ applyOps a b l2 := by
  induction l1 with
  | nil => rfl
  | cons op l1 ih =>
    rw [List.cons_append, applyOps, applyOps, ih, List.append_assoc]

/-- Cursor hypothesis for the tail of the walk. -/
theorem walk_cursor_rest {ai bj sz : Nat} {rest : List (Nat × Nat × Nat)}
    (hpw : List.Pairwise BlockBefore ((ai, bj, sz) :: rest)) :
    ∀ p, rest.head? = some p → ai + sz ≤ p.1 ∧ bj + sz ≤ p.2.1 := by
  intro p hp
  have hmem : p ∈ rest := by
    cases rest with
    | nil => simp at hp
    | cons r rs =>
      simp only [List.head?_cons, Option.some.injEq] at hp
      subst hp
      exact List.mem_cons_self _ _
  have h := (List.pairwise_cons.1 hpw).1 p hmem
  exact ⟨h.1, h.2⟩

/-- Reconstruction along the walk: the emitted opcodes applied to `a`
produce exactly the `b`-interval from the cursor to the final cursor. -/
theorem walk_applyOps {α : Type} {a b : List α} :
    ∀ (bs : List (Nat × Nat × Nat)) (ci cj : Nat),
      (∀ p, bs.head? = some p → ci ≤ p.1 ∧ cj ≤ p.2.1) →
      List.Pairwise BlockBefore bs →
      (∀ p ∈ bs, BlockValid a b p) →
      applyOps a b (opcodeWalk ci cj bs) = sliceL b cj (lastEndJ bs cj) := by
  intro bs
  induction bs with
  | nil =>
    intro ci cj _ _ _
    rw [opcodeWalk, lastEndJ, sliceL_nil]
    rfl
  | cons hd rest ih =>
    obtain ⟨ai, bj, sz⟩ := hd
    intro ci cj hcur hpw hval
    have hha : ci ≤ ai := (hcur _ rfl).1
    have hhb : cj ≤ bj := (hcur _ rfl).2
    have hvhd : BlockValid a b (ai, bj, sz) := hval _ (List.mem_cons_self _ _)
    have hvrest : ∀ p ∈ rest, BlockValid a b p := fun p hp => hval p (List.mem_cons_of_mem _ hp)
    have hpwrest := (List.pairwise_cons.1 hpw).2
    have hcr := walk_cursor_rest hpw
    have hEg : bj + sz ≤ lastEndJ rest (bj + sz) :=
      lastEndJ_ge rest (bj + sz) (fun p hp => (hcr p hp).2) hpwrest
    rw [opcodeWalk]
    rw [applyOps_append, applyOps_append, ih (ai + sz) (bj + sz) hcr hpwrest hvrest,
      lastEndJ]
    dsimp only
    rw [eqs_applyOps a b ai bj sz hvhd]
    have hgap : applyOps a b
        (if ci < ai ∧ cj < bj then [OpCode.mk "replace" ci ai cj bj]
          else if ci < ai then [OpCode.mk "delete" ci ai cj cj]
          else if cj < bj then [OpCode.mk "insert" ci ci cj bj]
          else ([] : List OpCode)) = sliceL b cj bj := by
      rcases gap_cases a b ci ai cj bj hha hhb with ⟨hg, _, hjb⟩ | ⟨g, hg, _, _, _, _, _, _, hap⟩
      · rw [hg, ← hjb, sliceL_nil]
        rfl
      · rw [hg, hap]
    rw [hgap, sliceL_append b hhb (by omega), sliceL_append b (by omega) hEg]

/-- Every emitted opcode is well-formed. -/
theorem walk_mem {α : Type} {a b : List α} :
    ∀ (bs : List (Nat × Nat × Nat)) (ci cj : Nat),
      (∀ p, bs.head? = some p → ci ≤ p.1 ∧ cj ≤ p.2.1) →
      List.Pairwise BlockBefore bs →
      (∀ p ∈ bs, BlockValid a b p) →
      ∀ op ∈ opcodeWalk ci cj bs, GoodOp a b op := by
  intro bs
  induction bs with
  | nil =>
    intro ci cj _ _ _ op hop
    rw [opcodeWalk] at hop
    simp at hop
  | cons hd rest ih =>
    obtain ⟨ai, bj, sz⟩ := hd
    intro ci cj hcur hpw hval op hop
    have hha : ci ≤ ai := (hcur _ rfl).1
    have hhb : cj ≤ bj := (hcur _ rfl).2
    have hvhd : BlockValid a b (ai, bj, sz) := hval _ (List.mem_cons_self _ _)
    have hvrest : ∀ p ∈ rest, BlockValid a b p := fun p hp => hval p (List.mem_cons_of_mem _ hp)
    have hpwrest := (List.pairwise_cons.1 hpw).2
    have hcr := walk_cursor_rest hpw
    rw [opcodeWalk] at hop
    rcases List.mem_append.1 hop with hop12 | hop4
    · rcases List.mem_append.1 hop12 with hop1 | hop3
      · rcases gap_cases a b ci ai cj bj hha hhb with ⟨hg, _, _⟩ |
          ⟨g, hg, _, _, _, _, _, hgood, _⟩
        · rw [hg] at hop1; simp at hop1
        · rw [hg] at hop1
          rcases List.mem_singleton.1 hop1 with rfl
          exact hgood
      · rcases eqs_cases ai bj sz with ⟨he, _⟩ | ⟨he, hsz⟩
        · rw [he] at hop3; simp at hop3
        · rw [he] at hop3
          rcases List.mem_singleton.1 hop3 with rfl
          refine Or.inr (Or.inr (Or.inr ⟨rfl, ?_, ?_, ?_⟩))
          · show ai < ai + sz; omega
          · show ai + sz - ai = bj + sz - bj; omega
          · show sliceL a ai (ai + sz) = sliceL b bj (bj + sz)
            exact slice_eq_of_run (fun t ht => hvhd t ht)
    · exact ih (ai + sz) (bj + sz) hcr hpwrest hvrest op hop4

/-- If the walk emits nothing, the final cursor equals the initial one. -/
theorem walk_empty {α : Type} {a b : List α} :
    ∀ (bs : List (Nat × Nat × Nat)) (ci cj : Nat),
      (∀ p, bs.head? = some p → ci ≤ p.1 ∧ cj ≤ p.2.1) →
      List.Pairwise BlockBefore bs →
      opcodeWalk ci cj bs = ([] : List OpCode) →
      lastEndI bs ci = ci ∧ lastEndJ bs cj = cj := by
  intro bs
  induction bs with
  | nil => intro ci cj _ _ _; exact ⟨rfl, rfl⟩
  | cons hd rest ih =>
    obtain ⟨ai, bj, sz⟩ := hd
    intro ci cj hcur hpw hnil
    have hha : ci ≤ ai := (hcur _ rfl).1
    have hhb : cj ≤ bj := (hcur _ rfl).2
    have hpwrest := (List.pairwise_cons.1 hpw).2
    have hcr := walk_cursor_rest hpw
    rw [opcodeWalk] at hnil
    rcases List.append_eq_nil.1 hnil with ⟨hge0, hw0⟩
    rcases List.append_eq_nil.1 hge0 with ⟨hg0, he0⟩
    have hg := gap_cases a b ci ai cj bj hha hhb
    rcases hg with ⟨_, hia, hjb⟩ | ⟨g, hgeq, _⟩
    · rcases eqs_cases ai bj sz with ⟨_, hsz⟩ | ⟨heeq, _⟩
      · have hih := ih (ai + sz) (bj + sz) hcr hpwrest hw0
        rw [lastEndI, lastEndJ]
        dsimp only
        rw [hih.1, hih.2]
        omega
      · rw [heeq] at he0; simp at he0
    · rw [hgeq] at hg0; simp at hg0

/-- The emitted opcodes chain; the first starts at the cursor and the last
ends at the final cursor. -/
theorem walk_chain {α : Type} {a b : List α} :
    ∀ (bs : List (Nat × Nat × Nat)) (ci cj : Nat),
      (∀ p, bs.head? = some p → ci ≤ p.1 ∧ cj ≤ p.2.1) →
      List.Pairwise BlockBefore bs →
      List.Chain' (fun o p => o.i2 = p.i1 ∧ o.j2 = p.j1) (opcodeWalk ci cj bs) ∧
      (∀ o, (opcodeWalk ci cj bs).head? = some o → o.i1 = ci ∧ o.j1 = cj) ∧
      (∀ o, (opcodeWalk ci cj bs).getLast? = some o →
        o.i2 = lastEndI bs ci ∧ o.j2 = lastEndJ bs cj) := by
  intro bs
  induction bs with
  | nil =>
    intro ci cj _ _
    rw [opcodeWalk]
    exact ⟨List.chain'_nil, by intro o h; simp at h, by intro o h; simp at h⟩
  | cons hd rest ih =>
    obtain ⟨ai, bj, sz⟩ := hd
    intro ci cj hcur hpw
    have hha : ci ≤ ai := (hcur _ rfl).1
    have hhb : cj ≤ bj := (hcur _ rfl).2
    have hpwrest := (List.pairwise_cons.1 hpw).2
    have hcr := walk_cursor_rest hpw
    obtain ⟨C1, C2, C3⟩ := ih (ai + sz) (bj + sz) hcr hpwrest
    have hlast' : ∀ o, (opcodeWalk (ai + sz) (bj + sz) rest).getLast? = some o →
        o.i2 = lastEndI ((ai, bj, sz) :: rest) ci ∧
        o.j2 = lastEndJ ((ai, bj, sz) :: rest) cj := by
      intro o ho
      rw [lastEndI, lastEndJ]
      exact C3 o ho
    have hWempty : opcodeWalk (ai + sz) (bj + sz) rest = [] →
        lastEndI ((ai, bj, sz) :: rest) ci = ai + sz ∧
        lastEndJ ((ai, bj, sz) :: rest) cj = bj + sz := by
      intro hw
      have := @walk_empty _ a b rest (ai + sz) (bj + sz) hcr hpwrest hw
      rw [lastEndI, lastEndJ]
      exact ⟨this.1, this.2⟩
    rw [opcodeWalk]
    rcases gap_cases a b ci ai cj bj hha hhb with ⟨hg, hia, hjb⟩ |
      ⟨g, hg, _, hg1, hg2, hg3, hg4, _, _⟩
    · rcases eqs_cases ai bj sz with ⟨he, hsz⟩ | ⟨he, hsz⟩
      · -- no gap and no equal op: the walk of the tail, with the same cursor
        rw [hg, he]
        simp only [List.nil_append, List.append_nil, List.singleton_append, List.cons_append]
        refine ⟨C1, ?_, ?_⟩
        · intro o ho
          have := C2 o ho
          omega
        · exact hlast'
      · -- only the equal op
        rw [hg, he]
        simp only [List.nil_append, List.append_nil, List.singleton_append, List.cons_append]
        refine ⟨?_, ?_, ?_⟩
        · apply List.chain'_cons'.2
          refine ⟨?_, C1⟩
          intro o ho
          have := C2 o ho
          dsimp only
          omega
        · intro o ho
          simp only [List.head?_cons, Option.some.injEq] at ho
          subst ho
          dsimp only
          omega
        · intro o ho
          cases hW : opcodeWalk (ai + sz) (bj + sz) rest with
          | nil =>
            rw [hW, List.getLast?_singleton] at ho
            rcases Option.some.inj ho with rfl
            have := hWempty hW
            dsimp only
            omega
          | cons w ws =>
            rw [hW, List.getLast?_cons_cons] at ho
            have := hlast' o (by rw [hW]; exact ho)
            exact this
    · rcases eqs_cases ai bj sz with ⟨he, hsz⟩ | ⟨he, hsz⟩
      · -- only the gap op
        rw [hg, he]
        simp only [List.nil_append, List.append_nil, List.singleton_append, List.cons_append]
        refine ⟨?_, ?_, ?_⟩
        · apply List.chain'_cons'.2
          refine ⟨?_, C1⟩
          intro o ho
          have := C2 o ho
          omega
        · intro o ho
          simp only [List.head?_cons, Option.some.injEq] at ho
          subst ho
          omega
        · intro o ho
          cases hW : opcodeWalk (ai + sz) (bj + sz) rest with
          | nil =>
            rw [hW, List.getLast?_singleton] at ho
            rcases Option.some.inj ho with rfl
            have := hWempty hW
            omega
          | cons w ws =>
            rw [hW, List.getLast?_cons_cons] at ho
            have := hlast' o (by rw [hW]; exact ho)
            exact this
      · -- both the gap and the equal op
        rw [hg, he]
        simp only [List.nil_append, List.append_nil, List.singleton_append, List.cons_append]
        refine ⟨?_, ?_, ?_⟩
        · apply List.chain'_cons'.2
          constructor
          · intro o ho
            simp only [List.head?_cons, Option.mem_def, Option.some.injEq] at ho
            subst ho
            dsimp only
            omega
          · apply List.chain'_cons'.2
            refine ⟨?_, C1⟩
            intro o ho
            have := C2 o ho
            dsimp only
            omega
        · intro o ho
          simp only [List.head?_cons, Option.some.injEq] at ho
          subst ho
          omega
        · intro o ho
          rw [List.getLast?_cons_cons] at ho
          cases hW : opcodeWalk (ai + sz) (bj + sz) rest with
          | nil =>
            rw [hW, List.getLast?_singleton] at ho
            rcases Option.some.inj ho with rfl
            have := hWempty hW
            dsimp only
            omega
          | cons w ws =>
            rw [hW, List.getLast?_cons_cons] at ho
            have := hlast' o (by rw [hW]; exact ho)
            exact this

/-- No two adjacent EQUAL opcodes are emitted, and an EQUAL opcode at the
head of the walk can only come from a first block of positive size
starting exactly at the cursor. -/
theorem walk_noadj {α : Type} {a b : List α} :
    ∀ (bs : List (Nat × Nat × Nat)) (ci cj : Nat),
      (∀ p, bs.head? = some p → ci ≤ p.1 ∧ cj ≤ p.2.1) →
      List.Pairwise BlockBefore bs →
      List.Chain' (fun p q => 0 < q.2.2 → ¬(p.1 + p.2.2 = q.1 ∧ p.2.1 + p.2.2 = q.2.1)) bs →
      List.Chain' (fun o p => ¬(o.tag = "equal" ∧ p.tag = "equal")) (opcodeWalk ci cj bs) ∧
      (∀ o, (opcodeWalk ci cj bs).head? = some o → o.tag = "equal" →
        ∃ q, bs.head? = some q ∧ q.1 = ci ∧ q.2.1 = cj ∧ 0 < q.2.2) := by
  intro bs
  induction bs with
  | nil =>
    intro ci cj _ _ _
    rw [opcodeWalk]
    exact ⟨List.chain'_nil, by intro o h; simp at h⟩
  | cons hd rest ih =>
    obtain ⟨ai, bj, sz⟩ := hd
    intro ci cj hcur hpw hch
    have hha : ci ≤ ai := (hcur _ rfl).1
    have hhb : cj ≤ bj := (hcur _ rfl).2
    have hpwrest := (List.pairwise_cons.1 hpw).2
    have hcr := walk_cursor_rest hpw
    have hlink := (List.chain'_cons'.1 hch).1
    have hchrest := (List.chain'_cons'.1 hch).2
    obtain ⟨D1, D2⟩ := ih (ai + sz) (bj + sz) hcr hpwrest hchrest
    have hWheadNE : ∀ o, (opcodeWalk (ai + sz) (bj + sz) rest).head? = some o →
        o.tag ≠ "equal" := by
      intro o ho heq
      obtain ⟨q, hq, hq1, hq2, hq3⟩ := D2 o ho heq
      have := hlink q hq hq3
      exact this ⟨hq1.symm, hq2.symm⟩
    rw [opcodeWalk]
    rcases gap_cases a b ci ai cj bj hha hhb with ⟨hg, hia, hjb⟩ |
      ⟨g, hg, hgt, hg1, hg2, hg3, hg4, _, _⟩
    · rcases eqs_cases ai bj sz with ⟨he, hsz⟩ | ⟨he, hsz⟩
      · rw [hg, he]
        simp only [List.nil_append]
        refine ⟨D1, ?_⟩
        intro o ho heq
        exact absurd heq (hWheadNE o ho)
      · rw [hg, he]
        simp only [List.nil_append, List.singleton_append]
        refine ⟨?_, ?_⟩
        · apply List.chain'_cons'.2
          refine ⟨?_, D1⟩
          intro o ho hpair
          exact hWheadNE o ho hpair.2
        · intro o ho _
          exact ⟨(ai, bj, sz), rfl, hia.symm, hjb.symm, hsz⟩
    · rcases eqs_cases ai bj sz with ⟨he, hsz⟩ | ⟨he, hsz⟩
      · rw [hg, he]
        simp only [List.append_nil, List.singleton_append]
        refine ⟨?_, ?_⟩
        · apply List.chain'_cons'.2
          refine ⟨?_, D1⟩
          intro o _ hpair
          exact hgt hpair.1
        · intro o ho heq
          simp only [List.head?_cons, Option.some.injEq] at ho
          subst ho
          exact absurd heq hgt
      · rw [hg, he]
        simp only [List.singleton_append, List.cons_append]
        refine ⟨?_, ?_⟩
        · apply List.chain'_cons'.2
          constructor
          · intro o _ hpair
            exact hgt hpair.1
          · apply List.chain'_cons'.2
            refine ⟨?_, D1⟩
            intro o ho hpair
            exact hWheadNE o ho hpair.2
        · intro o ho heq
          simp only [List.head?_cons, Option.some.injEq] at ho
          subst ho
          exact absurd heq hgt

/-! ### Empty-window behaviour of `find_longest_match` -/

theorem extendLo_stop {α : Type} [DecidableEq α] (a b : List α) (alo blo bj bs : Nat) :
    extendLo a b alo blo alo bj bs = (alo, bj, bs) := by
  cases alo with
  | zero => rfl
  | succ n =>
    rw [extendLo, if_neg]
    intro h
    exact absurd h.1 (Nat.lt_irrefl _)

theorem extendLo_stopJ {α : Type} [DecidableEq α] (a b : List α) (alo blo bi bs : Nat)
    {bj : Nat} (h : bj ≤ blo) :
    extendLo a b alo blo bi bj bs = (bi, bj, bs) := by
  cases bi with
  | zero => rfl
  | succ n =>
    rw [extendLo, if_neg]
    intro hc
    omega

theorem extendHiF_stop1 {α : Type} [DecidableEq α] (a b : List α) (ahi bhi bi bj fuel bs : Nat)
    (h : ahi ≤ bi + bs) : extendHiF a b ahi bhi bi bj fuel bs = bs := by
  cases fuel with
  | zero => rfl
  | succ n =>
    rw [extendHiF, if_neg]
    intro hc
    omega

theorem extendHiF_stop2 {α : Type} [DecidableEq α] (a b : List α) (ahi bhi bi bj fuel bs : Nat)
    (h : bhi ≤ bj + bs) : extendHiF a b ahi bhi bi bj fuel bs = bs := by
  cases fuel with
  | zero => rfl
  | succ n =>
    rw [extendHiF, if_neg]
    intro hc
    omega

theorem flmRow_skip {i blo bhi : Nat} (h : bhi ≤ blo) (cur : Nat → Nat) :
    ∀ (ps : List Nat) (best : Nat × Nat × Nat) (new : Nat → Nat),
      flmRow i blo bhi cur ps best new = (best, new) := by
  intro ps
  induction ps with
  | nil => intro best new; rfl
  | cons j js ihp =>
    intro best new
    rw [flmRow, if_pos (by omega)]
    exact ihp best new

theorem flmScan_skip {α : Type} [DecidableEq α] {a b : List α} {blo bhi : Nat}
    (h : bhi ≤ blo) :
    ∀ (rows : List Nat) (best : Nat × Nat × Nat) (cur : Nat → Nat),
      flmScan a b blo bhi rows best cur = best := by
  intro rows
  induction rows with
  | nil => intro best cur; rfl
  | cons i is ihr =>
    intro best cur
    rw [flmScan]
    cases hx : (a.get? i).bind (chain_b b) with
    | none => exact ihr best _
    | some ps =>
      dsimp only
      rw [flmRow_skip h]
      exact ihr best _

/-- The empty-window behaviour: if `alo = ahi` or `blo = bhi`, the match
is `(alo, blo, 0)`. -/
theorem flm_empty {α : Type} [DecidableEq α] (a b : List α) {alo ahi blo bhi : Nat}
    (h : alo = ahi ∨ blo = bhi) :
    find_longest_match a b alo ahi blo bhi = (alo, blo, 0) := by
  rcases h with h | h
  · subst h
    unfold find_longest_match
    rw [Nat.sub_self]
    have h0 : List.range' alo 0 = [] := rfl
    rw [h0]
    have h1 : flmScan a b blo bhi [] (alo, blo, 0) (fun _ => 0) = (alo, blo, 0) := rfl
    rw [h1]
    dsimp only
    rw [extendLo_stop]
    dsimp only
    unfold extendHi
    rw [extendHiF_stop1 a b alo bhi alo blo _ 0 (by omega)]
  · subst h
    unfold find_longest_match
    rw [flmScan_skip (Nat.le_refl _)]
    dsimp only
    rw [extendLo_stopJ a b alo blo alo 0 (Nat.le_refl _)]
    dsimp only
    unfold extendHi
    rw [extendHiF_stop2 a b ahi blo alo blo _ 0 (by omega)]

/-! ### Claims C3, C4, C6, C7 -/

/-- Claim C3: applying the opcode list returned by `get_opcodes` to `A`
reconstructs `B`: concatenating, in order, the A-slice of every EQUAL op
and the B-slice of every INSERT or REPLACE op (and nothing for DELETE)
yields exactly `B`. -/
theorem opcodes_reconstruct {α : Type} [DecidableEq α] (a b : List α) :
    applyOps a b (get_opcodes a b) = b := by
  obtain ⟨hprops, ⟨L, hL, hLk⟩, hpw, hch⟩ := mb_props a b
  unfold get_opcodes
  have hcur : ∀ p, (get_matching_blocks a b).head? = some p → 0 ≤ p.1 ∧ 0 ≤ p.2.1 :=
    fun p _ => ⟨Nat.zero_le _, Nat.zero_le _⟩
  rw [walk_applyOps (get_matching_blocks a b) 0 0 hcur hpw
    (fun p hp => (hprops p hp).2.2), hL, lastEndJ_append_single]
  show sliceL b 0 (b.length + 0) = b
  rw [Nat.add_zero, sliceL_full]

/-- Claim C4: on a well-formed window `alo ≤ ahi ≤ |A|`, `blo ≤ bhi ≤ |B|`,
`find_longest_match` returns `(besti, bestj, bestsize)` with
`alo ≤ besti`, `blo ≤ bestj`, `besti + bestsize ≤ ahi`,
`bestj + bestsize ≤ bhi`, `bestsize ≥ 0`, and
`A[besti..besti+bestsize] = B[bestj..bestj+bestsize]`; an empty window
yields `(alo, blo, 0)`. -/
theorem find_longest_match_contract {α : Type} [DecidableEq α] (a b : List α)
    (alo ahi blo bhi : Nat) (h1 : alo ≤ ahi) (_h2 : ahi ≤ a.length)
    (h3 : blo ≤ bhi) (_h4 : bhi ≤ b.length) :
    alo ≤ (find_longest_match a b alo ahi blo bhi).1 ∧
    blo ≤ (find_longest_match a b alo ahi blo bhi).2.1 ∧
    (find_longest_match a b alo ahi blo bhi).1 +
      (find_longest_match a b alo ahi blo bhi).2.2 ≤ ahi ∧
    (find_longest_match a b alo ahi blo bhi).2.1 +
      (find_longest_match a b alo ahi blo bhi).2.2 ≤ bhi ∧
    0 ≤ (find_longest_match a b alo ahi blo bhi).2.2 ∧
    sliceL a (find_longest_match a b alo ahi blo bhi).1
        ((find_longest_match a b alo ahi blo bhi).1 +
          (find_longest_match a b alo ahi blo bhi).2.2) =
      sliceL b (find_longest_match a b alo ahi blo bhi).2.1
        ((find_longest_match a b alo ahi blo bhi).2.1 +
          (find_longest_match a b alo ahi blo bhi).2.2) ∧
    ((alo = ahi ∨ blo = bhi) → find_longest_match a b alo ahi blo bhi = (alo, blo, 0)) := by
  rcases flm_ok a b alo ahi blo bhi with ⟨hbi, hbj, hbs⟩ | ⟨_, hb1, hb2, hb3, hb4, hb5⟩
  · rw [hbi, hbj, hbs]
    refine ⟨Nat.le_refl _, Nat.le_refl _, by omega, by omega, Nat.zero_le _, ?_,
      fun h => flm_empty a b h⟩
    rw [Nat.add_zero, Nat.add_zero, sliceL_nil, sliceL_nil]
  · exact ⟨hb1, hb3, hb2, hb4, Nat.zero_le _, slice_eq_of_run hb5, fun h => flm_empty a b h⟩

/-- Claim C4 witness. -/
theorem find_longest_match_contract_witness :
    (0 : Nat) ≤ 2 ∧ 2 ≤ 2 ∧ (0 : Nat) ≤ 2 ∧ 2 ≤ 2 ∧
    (0 ≤ (find_longest_match ([5, 6] : List Nat) [6, 7] 0 2 0 2).1 ∧
      0 ≤ (find_longest_match ([5, 6] : List Nat) [6, 7] 0 2 0 2).2.1 ∧
      (find_longest_match ([5, 6] : List Nat) [6, 7] 0 2 0 2).1 +
        (find_longest_match ([5, 6] : List Nat) [6, 7] 0 2 0 2).2.2 ≤ 2 ∧
      (find_longest_match ([5, 6] : List Nat) [6, 7] 0 2 0 2).2.1 +
        (find_longest_match ([5, 6] : List Nat) [6, 7] 0 2 0 2).2.2 ≤ 2 ∧
      0 ≤ (find_longest_match ([5, 6] : List Nat) [6, 7] 0 2 0 2).2.2 ∧
      sliceL ([5, 6] : List Nat) (find_longest_match ([5, 6] : List Nat) [6, 7] 0 2 0 2).1
          ((find_longest_match ([5, 6] : List Nat) [6, 7] 0 2 0 2).1 +
            (find_longest_match ([5, 6] : List Nat) [6, 7] 0 2 0 2).2.2) =
        sliceL ([6, 7] : List Nat) (find_longest_match ([5, 6] : List Nat) [6, 7] 0 2 0 2).2.1
          ((find_longest_match ([5, 6] : List Nat) [6, 7] 0 2 0 2).2.1 +
            (find_longest_match ([5, 6] : List Nat) [6, 7] 0 2 0 2).2.2) ∧
      (((0 : Nat) = 2 ∨ (0 : Nat) = 2) →
        find_longest_match ([5, 6] : List Nat) [6, 7] 0 2 0 2 = (0, 0, 0))) :=
  ⟨by decide, by decide, by decide, by decide,
    find_longest_match_contract [5, 6] [6, 7] 0 2 0 2
      (by decide) (by decide) (by decide) (by decide)⟩

/-- Claim C6 (amended): the matching-block list is the collapsed list of
positive-length blocks followed by the sentinel `(m, n, 0)` (the only
zero-length entry, in final position); it is non-decreasing in `i` then
`j`; and no two consecutive blocks whose second member has positive
length are mergeable.  (As stated, with the sentinel included in the
no-mergeable condition, the claim is false: see the counterexample.) -/
theorem matching_blocks_invariants {α : Type} [DecidableEq α] (a b : List α) :
    (∃ L, get_matching_blocks a b = L ++ [(a.length, b.length, 0)] ∧ ∀ p ∈ L, 0 < p.2.2) ∧
    List.Chain' (fun p q => p.1 < q.1 ∨ (p.1 = q.1 ∧ p.2.1 ≤ q.2.1)) (get_matching_blocks a b) ∧
    List.Chain' (fun p q => 0 < q.2.2 → ¬(p.1 + p.2.2 = q.1 ∧ p.2.1 + p.2.2 = q.2.1))
      (get_matching_blocks a b) := by
  obtain ⟨hprops, hsent, hpw, hch⟩ := mb_props a b
  refine ⟨hsent, ?_, hch⟩
  have hchain := hpw.chain'
  exact hchain.imp (fun p q h => by simp only [BlockBefore] at h; omega)

/-- Claim C6 counterexample: for `A = B = [0]` the returned list is
`[(0, 0, 1), (1, 1, 0)]`, whose two consecutive entries satisfy
`i + k = i'` and `j + k = j'` — the claimed no-mergeable condition fails
on the sentinel. -/
theorem matching_blocks_sentinel_mergeable :
    ¬ List.Chain' (fun p q : Nat × Nat × Nat =>
        ¬(p.1 + p.2.2 = q.1 ∧ p.2.1 + p.2.2 = q.2.1))
      (get_matching_blocks ([0] : List Nat) [0]) := by
  have h : get_matching_blocks ([0] : List Nat) [0] = [(0, 0, 1), (1, 1, 0)] := by decide
  rw [h]
  intro hc
  exact (List.chain'_cons.1 hc).1 (by decide)

/-- Claim C6 witness. -/
theorem matching_blocks_invariants_witness :
    (∃ L, get_matching_blocks ([0, 1] : List Nat) [0, 2] = L ++ [(2, 2, 0)] ∧
      ∀ p ∈ L, 0 < p.2.2) ∧
    List.Chain' (fun p q => p.1 < q.1 ∨ (p.1 = q.1 ∧ p.2.1 ≤ q.2.1))
      (get_matching_blocks ([0, 1] : List Nat) [0, 2]) ∧
    List.Chain' (fun p q => 0 < q.2.2 → ¬(p.1 + p.2.2 = q.1 ∧ p.2.1 + p.2.2 = q.2.1))
      (get_matching_blocks ([0, 1] : List Nat) [0, 2]) :=
  matching_blocks_invariants [0, 1] [0, 2]

/-- Claim C7: the opcode list chains — consecutive ops share endpoints,
the first op starts at `(0, 0)`, the last ends at `(m, n)`, no two
adjacent ops are both EQUAL, and every op is well-formed for its tag
(EQUAL ops are element-wise matches with equally long sides, DELETE has
`j1 = j2`, INSERT has `i1 = i2`, REPLACE has both sides non-empty). -/
theorem opcodes_invariants {α : Type} [DecidableEq α] (a b : List α) :
    List.Chain' (fun o p => o.i2 = p.i1 ∧ o.j2 = p.j1) (get_opcodes a b) ∧
    (∀ o, (get_opcodes a b).head? = some o → o.i1 = 0 ∧ o.j1 = 0) ∧
    (∀ o, (get_opcodes a b).getLast? = some o → o.i2 = a.length ∧ o.j2 = b.length) ∧
    List.Chain' (fun o p => ¬(o.tag = "equal" ∧ p.tag = "equal")) (get_opcodes a b) ∧
    (∀ op ∈ get_opcodes a b,
      (op.tag = "equal" → op.i1 < op.i2 ∧ op.i2 - op.i1 = op.j2 - op.j1 ∧
        sliceL a op.i1 op.i2 = sliceL b op.j1 op.j2) ∧
      (op.tag = "delete" → op.i1 < op.i2 ∧ op.j1 = op.j2) ∧
      (op.tag = "insert" → op.i1 = op.i2 ∧ op.j1 < op.j2) ∧
      (op.tag = "replace" → op.i1 < op.i2 ∧ op.j1 < op.j2)) := by
  obtain ⟨hprops, ⟨L, hL, hLk⟩, hpw, hch⟩ := mb_props a b
  have hcur : ∀ p, (get_matching_blocks a b).head? = some p → 0 ≤ p.1 ∧ 0 ≤ p.2.1 :=
    fun p _ => ⟨Nat.zero_le _, Nat.zero_le _⟩
  obtain ⟨W1, W2, W3⟩ := @walk_chain _ a b (get_matching_blocks a b) 0 0 hcur hpw
  obtain ⟨N1, _⟩ := @walk_noadj _ a b (get_matching_blocks a b) 0 0 hcur hpw hch
  have hmem := @walk_mem _ a b (get_matching_blocks a b) 0 0 hcur hpw
    (fun p hp => (hprops p hp).2.2)
  refine ⟨W1, W2, ?_, N1, ?_⟩
  · intro o ho
    have := W3 o ho
    rw [hL, lastEndI_append_single, lastEndJ_append_single] at this
    constructor
    · rw [this.1]; dsimp only; omega
    · rw [this.2]; dsimp only; omega
  · intro op hop
    have hgood := hmem op hop
    refine ⟨?_, ?_, ?_, ?_⟩
    · intro htag
      rcases hgood with ⟨ht, _⟩ | ⟨ht, _⟩ | ⟨ht, _⟩ | ⟨_, h1', h2', h3'⟩
      · rw [htag] at ht; exact absurd ht (by decide)
      · rw [htag] at ht; exact absurd ht (by decide)
      · rw [htag] at ht; exact absurd ht (by decide)
      · exact ⟨h1', h2', h3'⟩
    · intro htag
      rcases hgood with ⟨ht, _⟩ | ⟨_, h1', h2'⟩ | ⟨ht, _⟩ | ⟨ht, _⟩
      · rw [htag] at ht; exact absurd ht (by decide)
      · exact ⟨h1', h2'⟩
      · rw [htag] at ht; exact absurd ht (by decide)
      · rw [htag] at ht; exact absurd ht (by decide)
    · intro htag
      rcases hgood with ⟨ht, _⟩ | ⟨ht, _⟩ | ⟨_, h1', h2'⟩ | ⟨ht, _⟩
      · rw [htag] at ht; exact absurd ht (by decide)
      · rw [htag] at ht; exact absurd ht (by decide)
      · exact ⟨h1', h2'⟩
      · rw [htag] at ht; exact absurd ht (by decide)
    · intro htag
      rcases hgood with ⟨_, h1', h2'⟩ | ⟨ht, _⟩ | ⟨ht, _⟩ | ⟨ht, _⟩
      · exact ⟨h1', h2'⟩
      · rw [htag] at ht; exact absurd ht (by decide)
      · rw [htag] at ht; exact absurd ht (by decide)
      · rw [htag] at ht; exact absurd ht (by decide)

/-- Claim C7 witness. -/
theorem opcodes_invariants_witness :
    List.Chain' (fun o p => o.i2 = p.i1 ∧ o.j2 = p.j1) (get_opcodes ([0, 1] : List Nat) [0, 2]) ∧
    (∀ o, (get_opcodes ([0, 1] : List Nat) [0, 2]).head? = some o → o.i1 = 0 ∧ o.j1 = 0) ∧
    (∀ o, (get_opcodes ([0, 1] : List Nat) [0, 2]).getLast? = some o → o.i2 = 2 ∧ o.j2 = 2) ∧
    List.Chain' (fun o p => ¬(o.tag = "equal" ∧ p.tag = "equal"))
      (get_opcodes ([0, 1] : List Nat) [0, 2]) ∧
    (∀ op ∈ get_opcodes ([0, 1] : List Nat) [0, 2],
      (op.tag = "equal" → op.i1 < op.i2 ∧ op.i2 - op.i1 = op.j2 - op.j1 ∧
        sliceL ([0, 1] : List Nat) op.i1 op.i2 = sliceL ([0, 2] : List Nat) op.j1 op.j2) ∧
      (op.tag = "delete" → op.i1 < op.i2 ∧ op.j1 = op.j2) ∧
      (op.tag = "insert" → op.i1 = op.i2 ∧ op.j1 < op.j2) ∧
      (op.tag = "replace" → op.i1 < op.i2 ∧ op.j1 < op.j2)) :=
  opcodes_invariants [0, 1] [0, 2]

/-- Claim C3 witness-style instance on a concrete input. -/
theorem opcodes_reconstruct_example :
    applyOps ([0, 1, 2] : List Nat) [0, 1, 3] (get_opcodes [0, 1, 2] [0, 1, 3]) = [0, 1, 3] :=
  opcodes_reconstruct [0, 1, 2] [0, 1, 3]

/-! ### The grouping layer (claims C1, C2) -/

/-- Shape facts about `get_opcodes` shared by the grouping lemmas: every
op is well-formed and no two adjacent ops are both EQUAL. -/
theorem codes_shape {α : Type} [DecidableEq α] (a b : List α) :
    (∀ op ∈ get_opcodes a b, GoodOp a b op) ∧
    List.Chain' (fun o p => ¬(o.tag = "equal" ∧ p.tag = "equal")) (get_opcodes a b) := by
  obtain ⟨hprops, _, hpw, hch⟩ := mb_props a b
  unfold get_opcodes
  have hcur : ∀ p, (get_matching_blocks a b).head? = some p → 0 ≤ p.1 ∧ 0 ≤ p.2.1 :=
    fun p _ => ⟨Nat.zero_le _, Nat.zero_le _⟩
  exact ⟨walk_mem _ 0 0 hcur hpw (fun p hp => (hprops p hp).2.2),
    (@walk_noadj _ a b _ 0 0 hcur hpw hch).1⟩

/-- In the `n = 0` grouping loop, every EQUAL op inside a produced group
has zero length (positive-length EQUAL ops are skipped). -/
theorem groupLoop0_equal_le :
    ∀ (codes : List OpCode) (groups : List (List OpCode)) (group : List OpCode),
      (∀ g ∈ groups, ∀ o ∈ g, o.tag = "equal" → o.i2 - o.i1 = 0) →
      (∀ o ∈ group, o.tag = "equal" → o.i2 - o.i1 = 0) →
      ∀ g ∈ groupLoop0 codes groups group, ∀ o ∈ g, o.tag = "equal" → o.i2 - o.i1 = 0 := by
  intro codes
  induction codes with
  | nil =>
    intro groups group hg hgr g hmem
    rw [groupLoop0] at hmem
    split at hmem
    · exact hg g hmem
    · rcases List.mem_append.1 hmem with h | h
      · exact hg g h
      · rw [List.mem_singleton.1 h]; exact hgr
  | cons c rest ih =>
    intro groups group hg hgr g hmem
    rw [groupLoop0] at hmem
    split at hmem
    case isTrue h =>
      refine ih _ _ ?_ (by intro o ho; simp at ho) g hmem
      split
      · exact hg
      · intro g' hg' o ho htag
        rcases List.mem_append.1 hg' with h' | h'
        · exact hg g' h' o ho htag
        · rw [List.mem_singleton.1 h'] at ho; exact hgr o ho htag
    case isFalse h =>
      refine ih _ _ hg ?_ g hmem
      intro o ho htag
      rcases List.mem_append.1 ho with ho' | ho'
      · exact hgr o ho' htag
      · rw [List.mem_singleton.1 ho'] at htag ⊢
        have hle : ¬ c.i1 < c.i2 := fun hlt => h ⟨htag, hlt⟩
        omega

/-- In the `n > 0` grouping loop, every EQUAL op inside a produced group
has length at most `2 * n` (longer ones are split into context pieces of
length `n`). -/
theorem groupLoopN_equal_le (n : Nat) :
    ∀ (codes : List OpCode) (groups : List (List OpCode)) (group : List OpCode),
      (∀ g ∈ groups, ∀ o ∈ g, o.tag = "equal" → o.i2 - o.i1 ≤ 2 * n) →
      (∀ o ∈ group, o.tag = "equal" → o.i2 - o.i1 ≤ 2 * n) →
      ∀ g ∈ groupLoopN n codes groups group, ∀ o ∈ g, o.tag = "equal" → o.i2 - o.i1 ≤ 2 * n := by
  intro codes
  induction codes with
  | nil =>
    intro groups group hg hgr g hmem
    rw [groupLoopN] at hmem
    split at hmem
    · exact hg g hmem
    · rcases List.mem_append.1 hmem with h | h
      · exact hg g h
      · rw [List.mem_singleton.1 h]; exact hgr
  | cons c rest ih =>
    intro groups group hg hgr g hmem
    rw [groupLoopN] at hmem
    split at hmem
    case isTrue h =>
      refine ih _ _ ?_ ?_ g hmem
      · split
        · exact hg
        · intro g' hg' o ho htag
          rcases List.mem_append.1 hg' with h' | h'
          · exact hg g' h' o ho htag
          · rw [List.mem_singleton.1 h'] at ho
            rcases List.mem_append.1 ho with ho' | ho'
            · exact hgr o ho' htag
            · rw [List.mem_singleton.1 ho']; dsimp only; omega
      · intro o ho htag
        rw [List.mem_singleton.1 ho]; dsimp only; omega
    case isFalse h =>
      refine ih _ _ hg ?_ g hmem
      intro o ho htag
      rcases List.mem_append.1 ho with ho' | ho'
      · exact hgr o ho' htag
      · rw [List.mem_singleton.1 ho'] at htag ⊢
        have hle : ¬ 2 * n < c.i2 - c.i1 := fun hlt => h ⟨htag, hlt⟩
        omega

/-- Claim C1 (amended): with the source's grouping (which lacks the
leading/trailing trim step), every EQUAL op anywhere in every hunk group
returned by `get_grouped_opcodes` has length at most `2 * n` — but the
first (or last) op of a group, when EQUAL, is only bounded by `2 * n`,
not by `n` as the claim states; see the counterexample. -/
theorem grouped_equal_ops_length_le {α : Type} [DecidableEq α] (a b : List α) (n : Nat) :
    ∀ g ∈ get_grouped_opcodes a b n, ∀ o ∈ g, o.tag = "equal" → o.i2 - o.i1 ≤ 2 * n := by
  intro g hg o ho htag
  simp only [get_grouped_opcodes] at hg
  split at hg
  · simp at hg
  · split at hg
    · simp at hg
    · split at hg
      · have := groupLoop0_equal_le _ _ _ (by intro g' h'; simp at h')
          (by intro o' h'; simp at h') g hg o ho htag
        omega
      · exact groupLoopN_equal_le n _ _ _ (by intro g' h'; simp at h')
          (by intro o' h'; simp at h') g hg o ho htag

/-- Claim C1 witness. -/
theorem grouped_equal_ops_length_le_witness :
    (OpCode.mk "equal" 0 2 0 2).i2 - (OpCode.mk "equal" 0 2 0 2).i1 ≤ 2 * 1 :=
  grouped_equal_ops_length_le ([0, 1, 2] : List Nat) [0, 1, 3] 1
    [⟨"equal", 0, 2, 0, 2⟩, ⟨"replace", 2, 3, 2, 3⟩] (by decide)
    ⟨"equal", 0, 2, 0, 2⟩ (by decide) rfl

/-- Claim C1 counterexample: for `A = [0,1,2]`, `B = [0,1,3]`, `n = 1`,
the only hunk group starts with the EQUAL op `(0,2,0,2)` of length
`2 > n` — the grouper does not shrink a leading EQUAL op to `n` lines. -/
theorem grouped_leading_equal_exceeds_n :
    ¬ (∀ g ∈ get_grouped_opcodes ([0, 1, 2] : List Nat) [0, 1, 3] 1,
        ∀ o ∈ g.take 1, o.tag = "equal" → o.i2 - o.i1 ≤ 1) := by
  intro h
  have := h [⟨"equal", 0, 2, 0, 2⟩, ⟨"replace", 2, 3, 2, 3⟩] (by decide)
    ⟨"equal", 0, 2, 0, 2⟩ (by decide) rfl
  exact absurd this (by decide)

/-- In the `n = 0` grouping loop, if every EQUAL code has positive
length, every produced group is non-empty and all but the last contain a
non-EQUAL op. -/
theorem groupLoop0_groups_ok :
    ∀ (codes : List OpCode) (groups : List (List OpCode)) (group : List OpCode),
      (∀ c ∈ codes, c.tag = "equal" → c.i1 < c.i2) →
      (∀ g ∈ groups, g ≠ [] ∧ ∃ o ∈ g, ¬ o.tag = "equal") →
      (group = [] ∨ ∃ o ∈ group, ¬ o.tag = "equal") →
      (∀ g ∈ groupLoop0 codes groups group, g ≠ []) ∧
      (∀ g ∈ (groupLoop0 codes groups group).dropLast, ∃ o ∈ g, ¬ o.tag = "equal") := by
  intro codes
  induction codes with
  | nil =>
    intro groups group hcodes hg hgr
    rw [groupLoop0]
    split
    case isTrue h =>
      exact ⟨fun g hmem => (hg g hmem).1,
        fun g hmem => (hg g (List.dropLast_subset _ hmem)).2⟩
    case isFalse h =>
      refine ⟨?_, ?_⟩
      · intro g hmem
        rcases List.mem_append.1 hmem with h' | h'
        · exact (hg g h').1
        · rw [List.mem_singleton.1 h']; exact h
      · intro g hmem
        rw [List.dropLast_concat] at hmem
        exact (hg g hmem).2
  | cons c rest ih =>
    intro groups group hcodes hg hgr
    rw [groupLoop0]
    split
    case isTrue h =>
      refine ih _ _ (fun c' h' => hcodes c' (List.mem_cons_of_mem _ h')) ?_ (Or.inl rfl)
      split
      case isTrue h2 => exact hg
      case isFalse h2 =>
        intro g' hmem
        rcases List.mem_append.1 hmem with h' | h'
        · exact hg g' h'
        · rw [List.mem_singleton.1 h']
          rcases hgr with h3 | h3
          · exact absurd h3 h2
          · exact ⟨h2, h3⟩
    case isFalse h =>
      refine ih _ _ (fun c' h' => hcodes c' (List.mem_cons_of_mem _ h')) hg (Or.inr ?_)
      refine ⟨c, List.mem_append.2 (Or.inr (List.mem_singleton.2 rfl)), ?_⟩
      intro htag
      exact h ⟨htag, hcodes c (List.mem_cons_self _ _) htag⟩

/-- In the `n > 0` grouping loop, given no two adjacent EQUAL codes,
every produced group is non-empty and all but the last contain a
non-EQUAL op.  The `group` accumulator is empty, already contains a
non-EQUAL op, or is a single synthesized EQUAL piece whose successor
code (if any) is non-EQUAL. -/
theorem groupLoopN_groups_ok (n : Nat) :
    ∀ (codes : List OpCode) (groups : List (List OpCode)) (group : List OpCode),
      List.Chain' (fun o p => ¬(o.tag = "equal" ∧ p.tag = "equal")) codes →
      (∀ g ∈ groups, g ≠ [] ∧ ∃ o ∈ g, ¬ o.tag = "equal") →
      (group = [] ∨ (∃ o ∈ group, ¬ o.tag = "equal") ∨
        (∃ e, group = [e] ∧ e.tag = "equal" ∧ ∀ c ∈ codes.head?, ¬ c.tag = "equal")) →
      (∀ g ∈ groupLoopN n codes groups group, g ≠ []) ∧
      (∀ g ∈ (groupLoopN n codes groups group).dropLast, ∃ o ∈ g, ¬ o.tag = "equal") := by
  intro codes
  induction codes with
  | nil =>
    intro groups group hchain hg hgr
    rw [groupLoopN]
    split
    case isTrue h =>
      exact ⟨fun g hmem => (hg g hmem).1,
        fun g hmem => (hg g (List.dropLast_subset _ hmem)).2⟩
    case isFalse h =>
      refine ⟨?_, ?_⟩
      · intro g hmem
        rcases List.mem_append.1 hmem with h' | h'
        · exact (hg g h').1
        · rw [List.mem_singleton.1 h']; exact h
      · intro g hmem
        rw [List.dropLast_concat] at hmem
        exact (hg g hmem).2
  | cons c rest ih =>
    intro groups group hchain hg hgr
    have hchead : ∀ p ∈ rest.head?, ¬(c.tag = "equal" ∧ p.tag = "equal") :=
      (List.chain'_cons'.1 hchain).1
    have hcrest : List.Chain' (fun o p => ¬(o.tag = "equal" ∧ p.tag = "equal")) rest :=
      (List.chain'_cons'.1 hchain).2
    rw [groupLoopN]
    split
    case isTrue h =>
      refine ih _ _ hcrest ?_ (Or.inr (Or.inr ⟨_, rfl, rfl, ?_⟩))
      · split
        case isTrue h2 => exact hg
        case isFalse h2 =>
          intro g' hmem
          rcases List.mem_append.1 hmem with h' | h'
          · exact hg g' h'
          · rw [List.mem_singleton.1 h']
            refine ⟨by simp, ?_⟩
            rcases hgr with h3 | h3 | h3
            · exact absurd h3 h2
            · obtain ⟨o, ho, hone⟩ := h3
              exact ⟨o, List.mem_append.2 (Or.inl ho), hone⟩
            · obtain ⟨e, _, hetag, hnext⟩ := h3
              exact absurd h.1 (hnext c rfl)
      · intro p hp htag2
        exact hchead p hp ⟨h.1, htag2⟩
    case isFalse h =>
      by_cases hc : c.tag = "equal"
      · refine ih _ _ hcrest hg (Or.inr ?_)
        rcases hgr with h3 | h3 | h3
        · rw [h3]
          refine Or.inr ⟨c, by rw [List.nil_append], hc, ?_⟩
          intro p hp htag2
          exact hchead p hp ⟨hc, htag2⟩
        · obtain ⟨o, ho, hone⟩ := h3
          exact Or.inl ⟨o, List.mem_append.2 (Or.inl ho), hone⟩
        · obtain ⟨e, _, hetag, hnext⟩ := h3
          exact absurd hc (hnext c rfl)
      · refine ih _ _ hcrest hg (Or.inr (Or.inl ?_))
        exact ⟨c, List.mem_append.2 (Or.inr (List.mem_singleton.2 rfl)), hc⟩

/-- Claim C2 (amended): every hunk group returned by
`get_grouped_opcodes` is non-empty, and every group other than the last
contains at least one non-EQUAL op.  The last group, however, is
appended whenever it is non-empty — including when it is a single EQUAL
op of pure context; see the counterexample. -/
theorem grouped_groups_proper {α : Type} [DecidableEq α] (a b : List α) (n : Nat) :
    (∀ g ∈ get_grouped_opcodes a b n, g ≠ []) ∧
    (∀ g ∈ (get_grouped_opcodes a b n).dropLast, ∃ o ∈ g, ¬ o.tag = "equal") := by
  obtain ⟨hgood, hnoadj⟩ := codes_shape a b
  simp only [get_grouped_opcodes]
  split
  · exact ⟨by intro g h; simp at h, by intro g h; simp at h⟩
  · split
    · exact ⟨by intro g h; simp at h, by intro g h; simp at h⟩
    · split
      · refine groupLoop0_groups_ok _ _ _ ?_ (by intro g' h'; simp at h') (Or.inl rfl)
        intro c hc htag
        rcases hgood c hc with ⟨ht, _⟩ | ⟨ht, _⟩ | ⟨ht, _⟩ | ⟨_, h1, _⟩
        · rw [htag] at ht; exact absurd ht (by decide)
        · rw [htag] at ht; exact absurd ht (by decide)
        · rw [htag] at ht; exact absurd ht (by decide)
        · exact h1
      · exact groupLoopN_groups_ok n _ _ _ hnoadj
          (by intro g' h'; simp at h') (Or.inl rfl)

/-- Claim C2 witness. -/
theorem grouped_groups_proper_witness :
    [OpCode.mk "equal" 0 1 0 1, OpCode.mk "replace" 1 2 1 2] ≠ ([] : List OpCode) :=
  (grouped_groups_proper ([0, 1] : List Nat) [0, 2] 1).1 _ (by decide)

/-- Claim C2 counterexample: for `A = [9,1,1,1,1]`, `B = [8,1,1,1,1]`,
`n = 1`, the long EQUAL run is split and the final group is the single
EQUAL op `(4,5,4,5)` — a group with no non-EQUAL op, appended because
the source only checks non-emptiness for the final group. -/
theorem grouped_last_group_pure_context :
    ¬ (∀ g ∈ get_grouped_opcodes ([9, 1, 1, 1, 1] : List Nat) [8, 1, 1, 1, 1] 1,
        ∃ o ∈ g, ¬ o.tag = "equal") := by
  intro h
  obtain ⟨o, ho, hone⟩ := h [⟨"equal", 4, 5, 4, 5⟩] (by decide)
  rw [List.mem_singleton.1 ho] at hone
  exact hone rfl

/-! ### The position index (claim C8) -/

/-- `i` occurs in the occurrence list of `x` iff `b[i] = x`. -/
theorem mem_occIdx_iff {α : Type} [DecidableEq α] (b : List α) (x : α) (i : Nat) :
    i ∈ occIdx b x ↔ b.get? i = some x := by
  unfold occIdx
  rw [List.mem_filter, List.mem_range]
  constructor
  · intro h
    simpa using h.2
  · intro h
    refine ⟨?_, by simpa using h⟩
    rcases List.get?_eq_some.1 h with ⟨h', _⟩
    exact h'

/-- The occurrence list of `x` is strictly ascending. -/
theorem occIdx_chain {α : Type} [DecidableEq α] (b : List α) (x : α) :
    List.Chain' (fun i j => i < j) (occIdx b x) := by
  rw [List.chain'_iff_pairwise]
  exact (List.pairwise_lt_range b.length).filter _

/-- The occurrence list of `x` is empty iff `x` does not occur in `b`. -/
theorem occIdx_eq_nil_iff {α : Type} [DecidableEq α] (b : List α) (x : α) :
    occIdx b x = [] ↔ ¬ x ∈ b := by
  rw [List.eq_nil_iff_forall_not_mem]
  constructor
  · intro h hx
    rcases List.mem_iff_get?.1 hx with ⟨i, hi⟩
    exact h i ((mem_occIdx_iff b x i).2 hi)
  · intro hx i hi
    exact hx (List.mem_iff_get?.2 ⟨i, (mem_occIdx_iff b x i).1 hi⟩)

/-- The occurrence list of `x` has length equal to the number of
occurrences of `x` in `b`. -/
theorem occIdx_length_count {α : Type} [DecidableEq α] (b : List α) (x : α) :
    (occIdx b x).length = b.count x := by
  induction b with
  | nil => rfl
  | cons a l ih =>
    unfold occIdx at ih ⊢
    rw [← List.countP_eq_length_filter] at ih ⊢
    rw [List.length_cons, List.range_succ_eq_map, List.countP_cons, List.countP_map,
      List.count_cons]
    have h2 : List.countP ((fun i => decide ((a :: l).get? i = some x)) ∘ Nat.succ)
        (List.range l.length) =
        List.countP (fun i => decide (l.get? i = some x)) (List.range l.length) := rfl
    rw [h2, ih]
    by_cases h : a = x
    · simp [h]
    · simp [h, Ne.symm h]

/-- Claim C8: the position index maps each element of `B` present as a
key to the strictly ascending list of its indices in `B`; for
`|B| < 200` a key is absent iff the element does not occur; for
`|B| ≥ 200` a key is absent iff the element does not occur or occurs
strictly more than `|B|/100 + 1` times; and an empty `B` produces an
empty map. -/
theorem chain_b_spec {α : Type} [DecidableEq α] (b : List α) (x : α) :
    (∀ l, chain_b b x = some l →
      (∀ i, i ∈ l ↔ b.get? i = some x) ∧ List.Chain' (fun i j => i < j) l) ∧
    (b.length < 200 → (chain_b b x = none ↔ ¬ x ∈ b)) ∧
    (200 ≤ b.length →
      (chain_b b x = none ↔ (¬ x ∈ b ∨ b.length / 100 + 1 < b.count x))) ∧
    (b = [] → chain_b b x = none) := by
  by_cases hnil : occIdx b x = []
  · have hcb : chain_b b x = none := by
      simp only [chain_b]
      rw [if_pos hnil]
    refine ⟨?_, ?_, ?_, fun _ => hcb⟩
    · intro l hl
      rw [hcb] at hl
      exact absurd hl (by simp)
    · intro _
      rw [hcb]
      exact iff_of_true rfl ((occIdx_eq_nil_iff b x).1 hnil)
    · intro _
      rw [hcb]
      exact iff_of_true rfl (Or.inl ((occIdx_eq_nil_iff b x).1 hnil))
  · by_cases hbig : 200 ≤ b.length ∧ b.length / 100 + 1 < (occIdx b x).length
    · have hcb : chain_b b x = none := by
        simp only [chain_b]
        rw [if_neg hnil, if_pos hbig]
      refine ⟨?_, ?_, ?_, ?_⟩
      · intro l hl
        rw [hcb] at hl
        exact absurd hl (by simp)
      · intro hlt
        exact absurd hbig.1 (by omega)
      · intro _
        rw [hcb]
        refine iff_of_true rfl (Or.inr ?_)
        rw [← occIdx_length_count]
        exact hbig.2
      · intro hb
        subst hb
        exact absurd rfl hnil
    · have hcb : chain_b b x = some (occIdx b x) := by
        simp only [chain_b]
        rw [if_neg hnil, if_neg hbig]
      refine ⟨?_, ?_, ?_, ?_⟩
      · intro l hl
        rw [hcb] at hl
        have hl2 := Option.some.inj hl
        subst hl2
        exact ⟨fun i => mem_occIdx_iff b x i, occIdx_chain b x⟩
      · intro _
        rw [hcb]
        exact iff_of_false (by simp) (fun hx => hnil ((occIdx_eq_nil_iff b x).2 hx))
      · intro hge
        rw [hcb]
        refine iff_of_false (by simp) ?_
        intro hor
        rcases hor with hx | hcnt
        · exact hnil ((occIdx_eq_nil_iff b x).2 hx)
        · rw [← occIdx_length_count] at hcnt
          exact hbig ⟨hge, hcnt⟩
      · intro hb
        subst hb
        exact absurd rfl hnil

/-- Claim C8 witness. -/
theorem chain_b_spec_witness :
    (∀ i, i ∈ ([0, 1] : List Nat) ↔ ([7, 7] : List Nat).get? i = some 7) ∧
    List.Chain' (fun i j => i < j) ([0, 1] : List Nat) :=
  (chain_b_spec ([7, 7] : List Nat) 7).1 [0, 1] (by decide)

/-! ### Invalid windows (claim C5) -/

/-- `extendLoC` starting from the initial best `(alo, blo, 0)` never
fires and never indexes out of bounds. -/
theorem extendLoC_init {α : Type} [DecidableEq α] (a b : List α) (alo blo : Nat) :
    extendLoC a b alo blo alo blo 0 = some (alo, blo, 0) := by
  cases alo with
  | zero => rfl
  | succ n =>
    rw [extendLoC, if_neg]
    omega

/-- `extendHiC` with a dead guard returns the current size untouched. -/
theorem extendHiC_nofire {α : Type} [DecidableEq α] (a b : List α) (ahi bhi besti bestj : Nat)
    (h : ¬(besti < ahi ∧ bestj < bhi)) :
    ∀ fuel, extendHiC a b ahi bhi besti bestj fuel 0 = some 0 := by
  intro fuel
  cases fuel with
  | zero => rfl
  | succ f =>
    rw [extendHiC, if_neg]
    omega

/-- If some scanned row index is out of bounds for `A`, the checked scan
signals the panic. -/
theorem flmScanC_oob {α : Type} [DecidableEq α] (a b : List α) (blo bhi : Nat) :
    ∀ (rows : List Nat) (best : Nat × Nat × Nat) (cur : Nat → Nat),
      (∃ i ∈ rows, a.length ≤ i) →
      flmScanC a b blo bhi rows best cur = none := by
  intro rows
  induction rows with
  | nil =>
    intro best cur h
    rcases h with ⟨i, hi, _⟩
    simp at hi
  | cons i0 rest ih =>
    intro best cur h
    obtain ⟨i, hi, hlen⟩ := h
    rw [flmScanC]
    cases hg : a.get? i0 with
    | none => rfl
    | some x =>
      have hi0 : i0 < a.length := by
        rcases List.get?_eq_some.1 hg with ⟨h', _⟩
        exact h'
      have hrest : i ∈ rest := by
        rcases List.mem_cons.1 hi with h' | h'
        · exact absurd hlen (by omega)
        · exact h'
      dsimp only
      cases hcb : chain_b b x with
      | none => exact ih best _ ⟨i, hrest, hlen⟩
      | some ps =>
        dsimp only
        exact ih _ _ ⟨i, hrest, hlen⟩

/-- With a reversed `B`-window every occurrence index is filtered out, so
the checked scan leaves the best untouched as long as every row of the
`A`-window is in bounds. -/
theorem flmScanC_bempty {α : Type} [DecidableEq α] (a b : List α) (blo bhi : Nat)
    (h : bhi ≤ blo) :
    ∀ (rows : List Nat) (best : Nat × Nat × Nat) (cur : Nat → Nat),
      (∀ i ∈ rows, i < a.length) →
      flmScanC a b blo bhi rows best cur = some best := by
  intro rows
  induction rows with
  | nil => intro best cur _; rfl
  | cons i0 rest ih =>
    intro best cur hin
    rw [flmScanC]
    cases hg : a.get? i0 with
    | none =>
      have hi0 : i0 < a.length := hin i0 (List.mem_cons_self _ _)
      rcases List.get?_eq_some.1 ((List.get?_eq_get hi0).trans rfl) with ⟨h', _⟩
      rw [List.get?_eq_get hi0] at hg
      exact absurd hg (by simp)
    | some x =>
      dsimp only
      cases hcb : chain_b b x with
      | none => exact ih best _ (fun i hi => hin i (List.mem_cons_of_mem _ hi))
      | some ps =>
        dsimp only
        rw [flmRow_skip h]
        exact ih best _ (fun i hi => hin i (List.mem_cons_of_mem _ hi))

/-- On `A = [y, y]`, `B = [y]` with window `(0, 2, 0, 2)` — the `A`-side
fully in bounds, only `bhi` exceeding `|B|` — the scan finds `(0, 0, 1)`
and the second extension loop then reads `B[1]` out of bounds: an
invalid `b`-side bound can also panic. -/
theorem flm_checked_b_oob {α : Type} [DecidableEq α] (y : α) :
    find_longest_match_checked [y, y] [y] 0 2 0 2 = none := by
  have hocc : occIdx [y] y = [0] := by
    unfold occIdx
    have h1 : List.range ([y] : List α).length = [0] := rfl
    rw [h1]
    have h2 : (decide (([y] : List α).get? 0 = some y)) = true := decide_eq_true rfl
    simp [List.filter, h2]
  have hcb : chain_b [y] y = some [0] := by
    simp only [chain_b]
    rw [hocc]
    rw [if_neg (by simp : ¬([0] : List Nat) = [])]
    rw [if_neg ?_]
    intro h
    have := h.1
    simp at this
  have hg0 : ([y, y] : List α).get? 0 = some y := rfl
  have hg1 : ([y, y] : List α).get? 1 = some y := rfl
  have hscan : flmScanC ([y, y] : List α) [y] 0 2 [0, 1] (0, 0, 0) (fun _ => 0) =
      some (0, 0, 1) := by
    rw [flmScanC, hg0]
    dsimp only
    rw [hcb]
    dsimp only
    rw [flmScanC, hg1]
    dsimp only
    rw [hcb]
    rfl
  unfold find_longest_match_checked
  have hr : List.range' 0 (2 - 0) = [0, 1] := rfl
  rw [hr, hscan]
  rfl

/-- Claim C5 (amended): `find_longest_match` performs no precondition
check, so an invalid window is not reliably rejected.  When `alo < ahi`
and `ahi > |A|` the row loop reads `A` out of bounds and the call panics
(modelled as `none`); a window with `ahi < alo` returns `(alo, blo, 0)`
instead of failing, and so does a window with `bhi < blo` whose `A`-side
stays in bounds; and an out-of-range `b`-side bound can also panic, in
the extension loop (`A = [y, y]`, `B = [y]`, window `(0, 2, 0, 2)`).
Whether an invalid window fails thus depends on which indices the loops
happen to touch; see the counterexample for an invalid window that
returns a result. -/
theorem find_longest_match_invalid {α : Type} [DecidableEq α] (a b : List α)
    (alo ahi blo bhi : Nat) :
    (alo < ahi → a.length < ahi → find_longest_match_checked a b alo ahi blo bhi = none) ∧
    (ahi < alo → find_longest_match_checked a b alo ahi blo bhi = some (alo, blo, 0)) ∧
    (bhi < blo → alo ≤ ahi → ahi ≤ a.length →
      find_longest_match_checked a b alo ahi blo bhi = some (alo, blo, 0)) ∧
    (∀ y : α, find_longest_match_checked [y, y] [y] 0 2 0 2 = none) := by
  refine ⟨?_, ?_, ?_, fun y => flm_checked_b_oob y⟩
  · intro h1 h2
    unfold find_longest_match_checked
    rw [flmScanC_oob a b blo bhi _ _ _ ?_]
    refine ⟨ahi - 1, ?_, by omega⟩
    rw [List.mem_range'_1]
    omega
  · intro h1
    unfold find_longest_match_checked
    have hr : ahi - alo = 0 := by omega
    rw [hr]
    have h0 : List.range' alo 0 = [] := rfl
    rw [h0]
    have hs : flmScanC a b blo bhi [] (alo, blo, 0) (fun _ => 0) = some (alo, blo, 0) := rfl
    rw [hs]
    dsimp only
    rw [extendLoC_init]
    dsimp only
    have hf : ahi - (alo + 0) = 0 := by omega
    rw [hf]
    rfl
  · intro h1 h2 h3
    unfold find_longest_match_checked
    rw [flmScanC_bempty a b blo bhi (by omega) _ _ _ ?_]
    · dsimp only
      rw [extendLoC_init]
      dsimp only
      rw [extendHiC_nofire a b ahi bhi alo blo (by omega)]
    · intro i hi
      rw [List.mem_range'_1] at hi
      omega

/-- Claim C5 witness. -/
theorem find_longest_match_invalid_witness :
    (0 : Nat) < 1 ∧ find_longest_match_checked ([0] : List Nat) [0] 1 0 0 1 = some (1, 0, 0) :=
  ⟨by decide, (find_longest_match_invalid ([0] : List Nat) [0] 1 0 0 1).2.1 (by decide)⟩

/-- Claim C5 counterexample: the window `alo = 1 > ahi = 0` is invalid,
yet the call does not fail — it returns `(1, 0, 0)` (the source's row
loop over `alo..ahi` is empty, no index is touched, and the initial best
is returned). -/
theorem find_longest_match_invalid_no_panic :
    ¬ (find_longest_match_checked ([0] : List Nat) [0] 1 0 0 1 = none) := by
  decide

/-! ### Non-empty output (claim C10) -/

/-- Endpoint facts about `get_opcodes`: the first op starts at `(0,0)`,
the last ends at `(|A|, |B|)`, and an empty opcode list forces both
sequences empty. -/
theorem codes_ends {α : Type} [DecidableEq α] (a b : List α) :
    (∀ o, (get_opcodes a b).head? = some o → o.i1 = 0 ∧ o.j1 = 0) ∧
    (∀ o, (get_opcodes a b).getLast? = some o → o.i2 = a.length ∧ o.j2 = b.length) ∧
    (get_opcodes a b = [] → a.length = 0 ∧ b.length = 0) := by
  obtain ⟨hprops, ⟨L, hL, hLk⟩, hpw, hch⟩ := mb_props a b
  unfold get_opcodes
  have hcur : ∀ p, (get_matching_blocks a b).head? = some p → 0 ≤ p.1 ∧ 0 ≤ p.2.1 :=
    fun p _ => ⟨Nat.zero_le _, Nat.zero_le _⟩
  obtain ⟨W1, W2, W3⟩ := @walk_chain _ a b (get_matching_blocks a b) 0 0 hcur hpw
  refine ⟨W2, ?_, ?_⟩
  · intro o ho
    have := W3 o ho
    rw [hL, lastEndI_append_single, lastEndJ_append_single] at this
    constructor
    · rw [this.1]; dsimp only; omega
    · rw [this.2]; dsimp only; omega
  · intro hnil
    have := @walk_empty _ a b (get_matching_blocks a b) 0 0 hcur hpw hnil
    rw [hL, lastEndI_append_single, lastEndJ_append_single] at this
    dsimp only at this
    omega

/-- Inversion for `singleEqual`. -/
theorem singleEqual_eq_true {codes : List OpCode} (h : singleEqual codes = true) :
    ∃ c, codes = [c] ∧ c.tag = "equal" := by
  cases codes with
  | nil => simp [singleEqual] at h
  | cons c rest =>
    cases rest with
    | nil =>
      refine ⟨c, rfl, ?_⟩
      simpa [singleEqual] using h
    | cons d rest' => simp [singleEqual] at h

/-- The `n = 0` grouping loop produces at least one group once any
flushed material, pending material, or non-skipped code exists. -/
theorem groupLoop0_ne_nil :
    ∀ (codes : List OpCode) (groups : List (List OpCode)) (group : List OpCode),
      (groups ≠ [] ∨ group ≠ [] ∨ ∃ c ∈ codes, ¬(c.tag = "equal" ∧ c.i1 < c.i2)) →
      groupLoop0 codes groups group ≠ [] := by
  intro codes
  induction codes with
  | nil =>
    intro groups group h
    rw [groupLoop0]
    split
    case isTrue hg =>
      rcases h with h | h | h
      · exact h
      · exact absurd hg h
      · rcases h with ⟨c, hc, _⟩
        simp at hc
    case isFalse hg => simp
  | cons c0 rest ih =>
    intro groups group h
    rw [groupLoop0]
    split
    case isTrue hg =>
      apply ih
      rcases h with h | h | h
      · left
        split
        · exact h
        · simp
      · left
        split
        next h2 => exact absurd h2 h
        next h2 => simp
      · obtain ⟨c, hc, hbad⟩ := h
        rcases List.mem_cons.1 hc with h' | h'
        · rw [h'] at hbad
          exact absurd hg hbad
        · exact Or.inr (Or.inr ⟨c, h', hbad⟩)
    case isFalse hg =>
      apply ih
      refine Or.inr (Or.inl ?_)
      simp

/-- The `n > 0` grouping loop produces at least one group once any
flushed material, pending material, or remaining code exists. -/
theorem groupLoopN_ne_nil (n : Nat) :
    ∀ (codes : List OpCode) (groups : List (List OpCode)) (group : List OpCode),
      (groups ≠ [] ∨ group ≠ [] ∨ codes ≠ []) →
      groupLoopN n codes groups group ≠ [] := by
  intro codes
  induction codes with
  | nil =>
    intro groups group h
    rw [groupLoopN]
    split
    case isTrue hg =>
      rcases h with h | h | h
      · exact h
      · exact absurd hg h
      · exact absurd rfl h
    case isFalse hg => simp
  | cons c0 rest ih =>
    intro groups group h
    rw [groupLoopN]
    split
    case isTrue hg =>
      apply ih
      refine Or.inr (Or.inl ?_)
      simp
    case isFalse hg =>
      apply ih
      refine Or.inr (Or.inl ?_)
      simp

/-- Whenever the two sequences differ, the grouped-opcode list is
non-empty. -/
theorem grouped_ne_nil {α : Type} [DecidableEq α] (a b : List α) (n : Nat) (hne : a ≠ b) :
    get_grouped_opcodes a b n ≠ [] := by
  obtain ⟨hgood, hnoadj⟩ := codes_shape a b
  obtain ⟨hhead, hlast, hempty⟩ := codes_ends a b
  simp only [get_grouped_opcodes]
  split
  case isTrue hc =>
    exfalso
    obtain ⟨ha, hb⟩ := hempty hc
    exact hne ((List.length_eq_zero.1 ha).trans (List.length_eq_zero.1 hb).symm)
  case isFalse hc =>
    split
    case isTrue hs =>
      exfalso
      obtain ⟨c, hcodes, htag⟩ := singleEqual_eq_true hs
      have hh := hhead c (by rw [hcodes]; rfl)
      have hl := hlast c (by rw [hcodes]; rfl)
      have hmem : c ∈ get_opcodes a b := by
        rw [hcodes]
        exact List.mem_singleton.2 rfl
      rcases hgood c hmem with ⟨ht, _⟩ | ⟨ht, _⟩ | ⟨ht, _⟩ | ⟨_, _, _, hslice⟩
      · rw [htag] at ht; exact absurd ht (by decide)
      · rw [htag] at ht; exact absurd ht (by decide)
      · rw [htag] at ht; exact absurd ht (by decide)
      · rw [hh.1, hh.2, hl.1, hl.2, sliceL_full, sliceL_full] at hslice
        exact hne hslice
    case isFalse hs =>
      split
      · apply groupLoop0_ne_nil
        refine Or.inr (Or.inr ?_)
        obtain ⟨cs, hcs⟩ : ∃ cs, get_opcodes a b = cs := ⟨_, rfl⟩
        rw [hcs] at hc hs hnoadj ⊢
        cases cs with
        | nil => exact absurd rfl hc
        | cons c0 rest =>
          by_cases h0 : c0.tag = "equal"
          · cases rest with
            | nil =>
              exfalso
              apply hs
              simp [singleEqual, h0]
            | cons c1 rest' =>
              refine ⟨c1, List.mem_cons_of_mem _ (List.mem_cons_self _ _), ?_⟩
              intro hbad
              exact (List.chain'_cons'.1 hnoadj).1 c1 rfl ⟨h0, hbad.1⟩
          · exact ⟨c0, List.mem_cons_self _ _, fun hbad => h0 hbad.1⟩
      · apply groupLoopN_ne_nil
        exact Or.inr (Or.inr hc)

/-- Claim C10: `unified_diff` returns the empty line list exactly when
the two inputs are equal; whenever they differ, the grouped-opcode list
is non-empty, so the two file headers and at least one hunk are emitted. -/
theorem unified_diff_empty_iff (a b : List String)
    (fromfile tofile fromfiledate tofiledate : String) (n : Nat) (lineterm : String) :
    unified_diff a b fromfile tofile fromfiledate tofiledate n lineterm = [] ↔ a = b := by
  constructor
  · intro h
    by_contra hne
    simp only [unified_diff] at h
    rw [if_neg hne] at h
    split at h
    next hg => exact absurd hg (grouped_ne_nil a b n hne)
    next hg => exact absurd h (by simp)
  · intro h
    simp only [unified_diff]
    rw [if_pos h]

/-- Claim C10 witness. -/
theorem unified_diff_empty_iff_witness :
    unified_diff ["x"] ["x"] "f" "t" "" "" 3 "\n" = [] :=
  (unified_diff_empty_iff ["x"] ["x"] "f" "t" "" "" 3 "\n").2 rfl

/-! ### Matching a sequence against itself (claim C9) -/

/-- Whether row `r` survives popularity pruning (its element has a key
in the position index); out-of-range rows count as surviving. -/
def rowNP {α : Type} [DecidableEq α] (a : List α) (r : Nat) : Bool :=
  match a.get? r with
  | none => true
  | some x => (chain_b a x).isSome

/-- Length of the streak of consecutive non-pruned rows ending at `r`. -/
def streakF {α : Type} [DecidableEq α] (a : List α) : Nat → Nat
  | 0 => if rowNP a 0 then 1 else 0
  | r + 1 => if rowNP a (r + 1) then streakF a r + 1 else 0

/-- The non-pruned streak strictly before row `i`. -/
def prevStreak {α : Type} [DecidableEq α] (a : List α) : Nat → Nat
  | 0 => 0
  | r + 1 => streakF a r

theorem streakF_succ {α : Type} [DecidableEq α] (a : List α) (i : Nat)
    (h : rowNP a i = true) : streakF a i = prevStreak a i + 1 := by
  cases i with
  | zero => rw [streakF, if_pos h]; rfl
  | succ r => rw [streakF, if_pos h]; rfl

theorem streakF_zero {α : Type} [DecidableEq α] (a : List α) (i : Nat)
    (h : rowNP a i = false) : streakF a i = 0 := by
  cases i with
  | zero => rw [streakF, h]; rfl
  | succ r => rw [streakF, h]; rfl

theorem streakF_le {α : Type} [DecidableEq α] (a : List α) : ∀ r, streakF a r ≤ r + 1 := by
  intro r
  induction r with
  | zero => rw [streakF]; split <;> omega
  | succ q ih => rw [streakF]; split <;> omega

theorem prevStreak_le {α : Type} [DecidableEq α] (a : List α) : ∀ i, prevStreak a i ≤ i := by
  intro i
  cases i with
  | zero => exact Nat.le_refl 0
  | succ r => exact streakF_le a r

theorem prevStreak_pos {α : Type} [DecidableEq α] (a : List α) (j : Nat) (h : 0 < j) :
    prevStreak a j = streakF a (j - 1) := by
  cases j with
  | zero => omega
  | succ r => rfl

/-- A present key maps exactly to its occurrence list. -/
theorem chain_b_some_eq {α : Type} [DecidableEq α] {b : List α} {x : α} {ps : List Nat}
    (h : chain_b b x = some ps) : ps = occIdx b x := by
  simp only [chain_b] at h
  split at h
  · exact absurd h (by simp)
  · split at h
    · exact absurd h (by simp)
    · exact (Option.some.inj h).symm

/-- Diagonality of the inner row loop when matching `a` against itself:
columns left of the diagonal never beat the best (their streak was
already banked when their own row was processed), the diagonal column
always records the full current streak, and columns right of the
diagonal cannot exceed it. -/
theorem flmRow_diag {α : Type} [DecidableEq α] (a : List α) (i : Nat) (x : α)
    (hx : a.get? i = some x) (hnp : rowNP a i = true) (cur : Nat → Nat)
    (hC1 : ∀ j, cur j ≤ prevStreak a i) (hC2 : ∀ j, cur j ≤ streakF a j)
    (hD : prevStreak a i ≤ cur (i - 1)) :
    ∀ (ps : List Nat) (bi bj bs : Nat) (new : Nat → Nat)
      (bi' bj' bs' : Nat) (new' : Nat → Nat),
      List.Pairwise (fun p q => p < q) ps →
      (∀ j ∈ ps, a.get? j = some x) →
      bi = bj → bi + bs ≤ i + 1 →
      (∀ r, r < i → streakF a r ≤ bs) →
      (i ∈ ps ∨ (streakF a i ≤ bs ∧ streakF a i ≤ new i)) →
      (∀ j, new j ≤ streakF a j ∧ new j ≤ streakF a i) →
      flmRow i 0 a.length cur ps (bi, bj, bs) new = ((bi', bj', bs'), new') →
      bi' = bj' ∧ bi' + bs' ≤ i + 1 ∧ bs ≤ bs' ∧
      (∀ r, r < i → streakF a r ≤ bs') ∧ streakF a i ≤ bs' ∧
      streakF a i ≤ new' i ∧ (∀ j, new' j ≤ streakF a j ∧ new' j ≤ streakF a i) := by
  intro ps
  induction ps with
  | nil =>
    intro bi bj bs new bi' bj' bs' new' hpw hmem hbd hend hB hdisj hnew heq
    rw [flmRow] at heq
    cases heq
    rcases hdisj with hmemi | ⟨hd1, hd2⟩
    · simp at hmemi
    · exact ⟨hbd, hend, Nat.le_refl _, hB, hd1, hd2, hnew⟩
  | cons j js ih =>
    intro bi bj bs new bi' bj' bs' new' hpw hmem hbd hend hB hdisj hnew heq
    have hjx : a.get? j = some x := hmem j (List.mem_cons_self _ _)
    have hjlt : j < a.length := by
      rcases List.get?_eq_some.1 hjx with ⟨h', _⟩
      exact h'
    have hNPj : rowNP a j = true := by
      unfold rowNP at hnp ⊢
      rw [hx] at hnp
      rw [hjx]
      exact hnp
    rw [flmRow, if_neg (by omega)] at heq
    dsimp only at heq
    generalize hk : (if j = 0 then 0 else cur (j - 1)) = k at heq
    have hkj : k + 1 ≤ streakF a j := by
      rw [streakF_succ a j hNPj]
      have hle : k ≤ prevStreak a j := by
        rcases Nat.eq_zero_or_pos j with hj0 | hjpos
        · subst hj0
          rw [if_pos rfl] at hk
          omega
        · rw [if_neg (by omega)] at hk
          rw [prevStreak_pos a j hjpos]
          have := hC2 (j - 1)
          omega
      omega
    have hki : k + 1 ≤ streakF a i := by
      rw [streakF_succ a i hnp]
      have hle : k ≤ prevStreak a i := by
        rcases Nat.eq_zero_or_pos j with hj0 | hjpos
        · subst hj0
          rw [if_pos rfl] at hk
          omega
        · rw [if_neg (by omega)] at hk
          have := hC1 (j - 1)
          omega
      omega
    have hpwtl : List.Pairwise (fun p q => p < q) js := (List.pairwise_cons.1 hpw).2
    have hmemtl : ∀ q ∈ js, a.get? q = some x :=
      fun q hq => hmem q (List.mem_cons_of_mem _ hq)
    rcases Nat.lt_trichotomy j i with hji | hji | hji
    · -- left of the diagonal: the run was banked at row j already
      have hnofire : ¬ bs < k + 1 := by
        have h1 : streakF a j ≤ bs := hB j hji
        omega
      rw [if_neg hnofire] at heq
      refine ih bi bj bs _ bi' bj' bs' new' hpwtl hmemtl hbd hend hB ?_ ?_ heq
      · rcases hdisj with hmemi | hright
        · rcases List.mem_cons.1 hmemi with h' | h'
          · omega
          · exact Or.inl h'
        · refine Or.inr ⟨hright.1, ?_⟩
          rw [if_neg (by omega)]
          exact hright.2
      · intro q
        by_cases hq : q = j
        · subst hq
          rw [if_pos rfl]
          exact ⟨hkj, hki⟩
        · rw [if_neg hq]
          exact (hnew q)
    · -- the diagonal column: records the full current streak
      subst hji
      have hkD : prevStreak a j ≤ k := by
        rcases Nat.eq_zero_or_pos j with h0 | hpos
        · have : prevStreak a j = 0 := by rw [h0]; rfl
          omega
        · rw [if_neg (by omega)] at hk
          have := hD
          omega
      have hfire_val : streakF a j ≤ k + 1 := by
        rw [streakF_succ a j hnp]
        omega
      have hkle : k ≤ j := by
        have := streakF_le a j
        omega
      by_cases hf : bs < k + 1
      · rw [if_pos hf] at heq
        have hres := ih (j - k) (j - k) (k + 1) _ bi' bj' bs' new' hpwtl hmemtl rfl
          (by omega) (fun r hr => by have := hB r hr; omega)
          (Or.inr ⟨hfire_val, by rw [if_pos rfl]; exact hfire_val⟩)
          (fun q => by
            by_cases hq : q = j
            · subst hq; rw [if_pos rfl]; exact ⟨hki, hki⟩
            · rw [if_neg hq]; exact hnew q) heq
        exact ⟨hres.1, hres.2.1, by have := hres.2.2.1; omega, hres.2.2.2.1,
          hres.2.2.2.2.1, hres.2.2.2.2.2.1, hres.2.2.2.2.2.2⟩
      · rw [if_neg hf] at heq
        refine ih bi bj bs _ bi' bj' bs' new' hpwtl hmemtl hbd hend hB
          (Or.inr ⟨by omega, by rw [if_pos rfl]; exact hfire_val⟩)
          (fun q => by
            by_cases hq : q = j
            · subst hq; rw [if_pos rfl]; exact ⟨hki, hki⟩
            · rw [if_neg hq]; exact hnew q) heq
    · -- right of the diagonal: bounded by the diagonal value, already banked
      have hdisj_right : streakF a i ≤ bs ∧ streakF a i ≤ new i := by
        rcases hdisj with hmemi | hr
        · exfalso
          rcases List.mem_cons.1 hmemi with h' | h'
          · omega
          · have := (List.pairwise_cons.1 hpw).1 i h'
            omega
        · exact hr
      have hnofire : ¬ bs < k + 1 := by omega
      rw [if_neg hnofire] at heq
      refine ih bi bj bs _ bi' bj' bs' new' hpwtl hmemtl hbd hend hB
        (Or.inr ⟨hdisj_right.1, ?_⟩)
        (fun q => by
          by_cases hq : q = j
          · subst hq; rw [if_pos rfl]; exact ⟨hkj, hki⟩
          · rw [if_neg hq]; exact hnew q) heq
      rw [if_neg (by omega)]
      exact hdisj_right.2

/-- Diagonality of the scan loop when matching `a` against itself:
processing rows `i, i+1, …` from a diagonal state yields a diagonal
best within bounds. -/
theorem flmScan_diag {α : Type} [DecidableEq α] (a : List α) :
    ∀ (n i : Nat), i + n = a.length →
    ∀ (bi bj bs : Nat) (cur : Nat → Nat),
      bi = bj → bi + bs ≤ i →
      (∀ r, r < i → streakF a r ≤ bs) →
      (∀ j, cur j ≤ prevStreak a i) →
      (∀ j, cur j ≤ streakF a j) →
      prevStreak a i ≤ cur (i - 1) →
      (flmScan a a 0 a.length (List.range' i n) (bi, bj, bs) cur).1 =
        (flmScan a a 0 a.length (List.range' i n) (bi, bj, bs) cur).2.1 ∧
      (flmScan a a 0 a.length (List.range' i n) (bi, bj, bs) cur).1 +
        (flmScan a a 0 a.length (List.range' i n) (bi, bj, bs) cur).2.2 ≤ a.length := by
  intro n
  induction n with
  | zero =>
    intro i hi bi bj bs cur hbd hend hB hC1 hC2 hD
    have h0 : List.range' i 0 = [] := rfl
    rw [h0, flmScan]
    exact ⟨hbd, by dsimp only; omega⟩
  | succ n ihn =>
    intro i hi bi bj bs cur hbd hend hB hC1 hC2 hD
    have hr : List.range' i (n + 1) = i :: List.range' (i + 1) n := rfl
    rw [hr, flmScan]
    have hilt : i < a.length := by omega
    have hx : a.get? i = some (a.get ⟨i, hilt⟩) := List.get?_eq_get hilt
    have hs : (a.get? i).bind (chain_b a) = chain_b a (a.get ⟨i, hilt⟩) := by
      rw [hx]
      rfl
    rw [hs]
    cases hcb : chain_b a (a.get ⟨i, hilt⟩) with
    | none =>
      dsimp only
      have hNPi : rowNP a i = false := by
        unfold rowNP
        rw [hx]
        dsimp only
        rw [hcb]
        rfl
      have hstreak0 : streakF a i = 0 := streakF_zero a i hNPi
      refine ihn (i + 1) (by omega) bi bj bs (fun _ => 0) hbd (by omega) ?_ ?_ ?_ ?_
      · intro r hr'
        rcases Nat.lt_or_ge r i with h' | h'
        · exact hB r h'
        · have : r = i := by omega
          rw [this, hstreak0]
          omega
      · intro j
        exact Nat.zero_le _
      · intro j
        exact Nat.zero_le _
      · have : prevStreak a (i + 1) = streakF a i := rfl
        omega
    | some ps =>
      dsimp only
      have hNPi : rowNP a i = true := by
        unfold rowNP
        rw [hx]
        dsimp only
        rw [hcb]
        rfl
      have hps : ps = occIdx a (a.get ⟨i, hilt⟩) := chain_b_some_eq hcb
      have hpw : List.Pairwise (fun p q => p < q) ps := by
        rw [hps]
        exact List.chain'_iff_pairwise.1 (occIdx_chain a _)
      have hmem : ∀ j ∈ ps, a.get? j = some (a.get ⟨i, hilt⟩) := by
        rw [hps]
        intro j hj
        exact (mem_occIdx_iff a _ j).1 hj
      have himem : i ∈ ps := by
        rw [hps]
        exact (mem_occIdx_iff a _ i).2 hx
      obtain ⟨⟨⟨bi2, bj2, bs2⟩, new2⟩, hst⟩ :
          ∃ st, flmRow i 0 a.length cur ps (bi, bj, bs) (fun _ => 0) = st := ⟨_, rfl⟩
      have hrow := flmRow_diag a i (a.get ⟨i, hilt⟩) hx hNPi cur hC1 hC2 hD ps
        bi bj bs (fun _ => 0) bi2 bj2 bs2 new2 hpw hmem hbd (by omega) hB
        (Or.inl himem) (fun j => ⟨Nat.zero_le _, Nat.zero_le _⟩) hst
      rw [hst]
      dsimp only
      refine ihn (i + 1) (by omega) bi2 bj2 bs2 new2 hrow.1 hrow.2.1 ?_ ?_ ?_ ?_
      · intro r hr'
        rcases Nat.lt_or_ge r i with h' | h'
        · exact hrow.2.2.2.1 r h'
        · have : r = i := by omega
          rw [this]
          exact hrow.2.2.2.2.1
      · intro j
        have h1 := (hrow.2.2.2.2.2.2 j).2
        have h2 : prevStreak a (i + 1) = streakF a i := rfl
        omega
      · intro j
        exact (hrow.2.2.2.2.2.2 j).1
      · have h1 := hrow.2.2.2.2.2.1
        have h2 : prevStreak a (i + 1) = streakF a i := rfl
        have h3 : (i + 1) - 1 = i := rfl
        rw [h3]
        omega

/-- Against itself, the first extension loop drags a diagonal best all
the way down to the window start. -/
theorem extendLo_self_diag {α : Type} [DecidableEq α] (a : List α) :
    ∀ (d s : Nat), extendLo a a 0 0 d d s = (0, 0, s + d) := by
  intro d
  induction d with
  | zero => intro s; rfl
  | succ q ih =>
    intro s
    rw [extendLo, if_pos ⟨Nat.succ_pos q, Nat.succ_pos q, rfl⟩]
    have h1 : q + 1 - 1 = q := rfl
    rw [h1, ih (s + 1)]
    have h2 : s + 1 + q = s + (q + 1) := by omega
    rw [h2]

/-- Against itself, the second extension loop grows a diagonal best all
the way up to the window end. -/
theorem extendHiF_self_diag {α : Type} [DecidableEq α] (a : List α) (m : Nat) :
    ∀ (fuel s : Nat), s + fuel = m → extendHiF a a m m 0 0 fuel s = m := by
  intro fuel
  induction fuel with
  | zero =>
    intro s hs
    rw [extendHiF]
    omega
  | succ f ih =>
    intro s hs
    rw [extendHiF, if_pos ⟨by omega, by omega, rfl⟩]
    exact ih (s + 1) (by omega)

/-- Against itself, `find_longest_match` over the full window returns
the whole diagonal. -/
theorem flm_self_diag {α : Type} [DecidableEq α] (a : List α) :
    find_longest_match a a 0 a.length 0 a.length = (0, 0, a.length) := by
  unfold find_longest_match
  have hscan := flmScan_diag a a.length 0 (by omega) 0 0 0 (fun _ => 0) rfl
    (by omega) (fun r hr => by omega) (fun j => Nat.le_refl 0)
    (fun j => Nat.zero_le _) (Nat.le_refl 0)
  obtain ⟨⟨bi, bj, bs⟩, hs⟩ :
      ∃ p, flmScan a a 0 a.length (List.range' 0 (a.length - 0)) (0, 0, 0) (fun _ => 0) = p :=
    ⟨_, rfl⟩
  have hs0 : a.length - 0 = a.length := rfl
  rw [hs0] at hs
  rw [hs] at hscan
  dsimp only at hscan
  obtain ⟨hbd, hend⟩ := hscan
  dsimp only
  rw [hs0, hs]
  dsimp only
  subst hbd
  rw [extendLo_self_diag a bi bs]
  dsimp only
  unfold extendHi
  rw [extendHiF_self_diag a a.length (a.length - (0 + (bs + bi))) (bs + bi) (by omega)]

/-- Claim C9 (amended): the source has no dedicated fast path, but for a
non-empty sequence matched against itself the full algorithm still
returns exactly `[(0, 0, m), (m, m, 0)]`.  For the empty sequence the
result is the single sentinel `[(0, 0, 0)]`, not the claimed
two-element list; see the counterexample. -/
theorem matching_blocks_self {α : Type} [DecidableEq α] (a : List α) (ha : a ≠ []) :
    get_matching_blocks a a = [(0, 0, a.length), (a.length, a.length, 0)] := by
  have hm : 0 < a.length := List.length_pos.2 ha
  unfold get_matching_blocks
  dsimp only
  have hmeas : rectMeasure [(0, a.length, 0, a.length)] = 2 * a.length + 1 := by
    rw [rectMeasure_cons4]
    have h0 : rectMeasure [] = 0 := rfl
    rw [h0]
    omega
  rw [hmeas]
  rw [mbLoopF]
  rw [flm_self_diag]
  dsimp only
  rw [if_pos hm]
  rw [if_neg (by omega : ¬((0 : Nat) < 0 ∧ (0 : Nat) < 0))]
  rw [if_neg (by omega : ¬(0 + a.length < a.length ∧ 0 + a.length < a.length))]
  rw [mbLoopF]
  have hsort : sortBlocks [(0, 0, a.length)] = [(0, 0, a.length)] := rfl
  rw [hsort]
  have hcol : collapseLoop [] [(0, 0, a.length)] = [(0, 0, a.length)] := by
    rw [collapseLoop, collapseLoop]
    rfl
  rw [hcol]
  rfl

/-- Claim C9 witness. -/
theorem matching_blocks_self_witness :
    get_matching_blocks ([5] : List Nat) [5] = [(0, 0, 1), (1, 1, 0)] :=
  matching_blocks_self [5] (by decide)

/-- Claim C9 counterexample: for the empty sequence (where `m = n = 0`
and the element-wise condition holds vacuously) the result is the single
sentinel `[(0, 0, 0)]`, not the claimed `[(0, 0, 0), (0, 0, 0)]`. -/
theorem matching_blocks_self_empty :
    get_matching_blocks ([] : List Nat) [] ≠ [(0, 0, 0), (0, 0, 0)] := by
  decide
end Difflib
